import Mathlib

/-!
Formal model of the cleanr job-orchestration core (designedbyjosh/cleanr).

Python strings are modelled as lists of characters, clock readings
(time.time, datetime.utcnow) as integers counting seconds, and the
SQLite rows touched by the claims as Lean structures.  Each definition
is a shallow embedding of the function of the same name in src/.
-/

namespace Cleanr

/-! ## core.apply.RateLimiter -/

/-- State of the process-wide rate limiter: the list of recorded
timestamps, in the order Python appended them. -/
structure RateLimiter where
  timestamps : List Int
deriving Repr, DecidableEq

/-- RateLimiter.check_and_record (src/core/apply.py lines 31-40).
Filters out timestamps at or before now - 3600, then either denies
(returning the wait until the first surviving timestamp leaves the
window) or records now.  Python indexes the first list element with
the subscript 0; when the filtered list is empty and max_per_hour is
zero that read raises IndexError, modelled as none. -/
def check_and_record (maxPerHour : Nat) (now : Int) (st : RateLimiter) :
    Option (Bool × Int × RateLimiter) :=
  let kept := st.timestamps.filter (fun t => now - 3600 < t)
  if maxPerHour ≤ kept.length then
    match kept with
    | [] => none
    | t0 :: _ => some (false, t0 + 3600 - now, ⟨kept⟩)
  else
    some (true, 0, ⟨kept ++ [now]⟩)

/-- The rate-limit gate at the top of the apply loop
(src/core/apply.py lines 73-78): the gate is consulted once; on denial
the caller sleeps min(wait, 60) seconds and then proceeds with its
action anyway.  Returns the start time of the IMAP action and the
limiter state afterwards. -/
def applyGate (maxPerHour : Nat) (now : Int) (st : RateLimiter) :
    Option (Int × RateLimiter) :=
  match check_and_record maxPerHour now st with
  | none => none
  | some (true, _, st2) => some (now, st2)
  | some (false, wait, st2) => some (now + min wait 60, st2)

/-- Start times of the IMAP actions across the apply loop.  Each list
entry is the delay between the previous action and the next gate
check; the loop body performs its action exactly once per
classification, whether or not the gate granted it. -/
def applyStarts (maxPerHour : Nat) : Int → RateLimiter → List Int → Option (List Int)
  | _, _, [] => some []
  | prev, st, gap :: gaps =>
    match applyGate maxPerHour (prev + gap) st with
    | none => none
    | some (start, st2) =>
      match applyStarts maxPerHour start st2 gaps with
      | none => none
      | some rest => some (start :: rest)

/-- Number of action starts inside the sliding window [w, w + 3600). -/
def countWindow (w : Int) (starts : List Int) : Nat :=
  (starts.filter (fun s => decide (w ≤ s) && decide (s < w + 3600))).length

/-- C1 as stated: across every execution of the apply loop, no sliding
3600-second window contains more than maxPerHour action starts. -/
def C1_claim : Prop :=
  ∀ (maxPerHour : Nat) (t0 : Int) (gaps starts : List Int) (w : Int),
    applyStarts maxPerHour t0 ⟨[]⟩ gaps = some starts →
    countWindow w starts ≤ maxPerHour

/-! ## core.apply.apply_classifications — per-classification step

The loop body of apply_classifications (src/core/apply.py lines
73-206), minus the rate-limit gate modelled above.  log_action writes
an ActionRecord row; emit mirrors log_action and is not modelled
separately.  The imapOk flag says whether the IMAP call of this step
raises (RuntimeError caught at lines 187-197): when it raises, errors
is incremented and no action row is written. -/

/-- The trash action set (src/core/apply.py line 20). -/
def trashActions : List String := ["marketing", "ephemeral", "spam"]

/-- The file action set (src/core/apply.py line 21). -/
def fileActions : List String :=
  ["receipt", "travel", "finance", "medical", "recruitment", "file"]

/-- The fields of one fetched email record that apply_classifications
reads. -/
structure Email where
  uid : String
  fromAddr : String
  subject : String
  isSeen : Bool
  isFlagged : Bool
deriving Repr, DecidableEq

/-- One classification dict, with the dict-get defaults already
applied: action defaults to keep, folder and reason to the empty
string, from_cache to false. -/
structure Classification where
  uid : String
  action : String
  folder : String
  reason : String
  fromCache : Bool
  fromField : String
  subjectField : String
deriving Repr, DecidableEq

/-- The three manifest options apply_classifications reads (with the
no-manifest defaults false / false / true). -/
structure ApplyConfig where
  isFolderJob : Bool
  delMktUnread : Bool
  skipFlagged : Bool
deriving Repr, DecidableEq

/-- The run counters. -/
structure Counters where
  kept : Nat
  filed : Nat
  trashed : Nat
  errors : Nat
  skipped : Nat
deriving Repr, DecidableEq

/-- IMAP operations issued by the apply stage. -/
inductive ImapOp where
  | ensureFolder (folder : String)
  | move (uid src dest : String)
  | delete (uid src : String)
deriving Repr, DecidableEq

/-- One row of the actions table (the log_action arguments). -/
structure ActionRecord where
  uid : String
  fromAddr : String
  subject : String
  action : String
  folder : String
  reason : String
deriving Repr, DecidableEq

/-- Result of processing one classification. -/
structure StepResult where
  counters : Counters
  ops : List ImapOp
  record : Option ActionRecord
deriving Repr, DecidableEq

/-- orig.get with fallback: from_addr (src/core/apply.py line 86). -/
def origFrom (emailMap : String → Option Email) (c : Classification) : String :=
  match emailMap c.uid with | some e => e.fromAddr | none => c.fromField

/-- orig.get with fallback: subject (line 87). -/
def origSubject (emailMap : String → Option Email) (c : Classification) : String :=
  match emailMap c.uid with | some e => e.subject | none => c.subjectField

/-- orig.get: is_seen defaults to true when the uid is unknown (line 88). -/
def origSeen (emailMap : String → Option Email) (c : Classification) : Bool :=
  match emailMap c.uid with | some e => e.isSeen | none => true

/-- orig.get: is_flagged defaults to false when the uid is unknown (line 89). -/
def origFlagged (emailMap : String → Option Email) (c : Classification) : Bool :=
  match emailMap c.uid with | some e => e.isFlagged | none => false

/-- The loop body of apply_classifications for one classification
(src/core/apply.py lines 80-206): flagged double-check, folder-job
keep rewrite, unread-marketing gate, then the action dispatch. -/
def applyStep (cfg : ApplyConfig) (sourceFolder : String)
    (emailMap : String → Option Email) (c : Classification) (imapOk : Bool)
    (cnt : Counters) : StepResult :=
  let fromAddr := origFrom emailMap c
  let subject := origSubject emailMap c
  let isSeen := origSeen emailMap c
  let isFlagged := origFlagged emailMap c
  if cfg.skipFlagged && isFlagged then
    { counters := { cnt with skipped := cnt.skipped + 1 }, ops := [],
      record := some ⟨c.uid, fromAddr, subject, "skip", "",
        "Flagged email — skipped"⟩ }
  else
    let action := if cfg.isFolderJob && c.action == "keep" then "inbox" else c.action
    let folder := if cfg.isFolderJob && c.action == "keep" then "INBOX" else c.folder
    if !cfg.isFolderJob && !isSeen && !(trashActions.contains action) then
      { counters := { cnt with skipped := cnt.skipped + 1 }, ops := [],
        record := some ⟨c.uid, fromAddr, subject, "skip", "", "Unread — skipped"⟩ }
    else if !cfg.isFolderJob && !isSeen && trashActions.contains action
        && !cfg.delMktUnread then
      { counters := { cnt with skipped := cnt.skipped + 1 }, ops := [],
        record := some ⟨c.uid, fromAddr, subject, "skip", "",
          "Unread marketing — skipped (enable delete_marketing_unread to trash)"⟩ }
    else if action == "keep" then
      { counters := { cnt with kept := cnt.kept + 1 }, ops := [],
        record := some ⟨c.uid, fromAddr, subject, action, folder, c.reason⟩ }
    else if action == "inbox" then
      if imapOk then
        { counters := { cnt with filed := cnt.filed + 1 },
          ops := [.move c.uid sourceFolder "INBOX"],
          record := some ⟨c.uid, fromAddr, subject, action, "INBOX", c.reason⟩ }
      else
        { counters := { cnt with errors := cnt.errors + 1 },
          ops := [.move c.uid sourceFolder "INBOX"], record := none }
    else if fileActions.contains action then
      if folder ≠ "" then
        if imapOk then
          { counters := { cnt with filed := cnt.filed + 1 },
            ops := [.ensureFolder folder, .move c.uid sourceFolder folder],
            record := some ⟨c.uid, fromAddr, subject, action, folder, c.reason⟩ }
        else
          { counters := { cnt with errors := cnt.errors + 1 },
            ops := [.ensureFolder folder], record := none }
      else
        if imapOk then
          { counters := { cnt with filed := cnt.filed + 1 },
            ops := [.move c.uid sourceFolder "INBOX"],
            record := some ⟨c.uid, fromAddr, subject, "inbox", "INBOX",
              "No folder assigned — sent to INBOX"⟩ }
        else
          { counters := { cnt with errors := cnt.errors + 1 },
            ops := [.move c.uid sourceFolder "INBOX"], record := none }
    else if trashActions.contains action then
      if imapOk then
        { counters := { cnt with trashed := cnt.trashed + 1 },
          ops := [.delete c.uid sourceFolder],
          record := some ⟨c.uid, fromAddr, subject, action, "", c.reason⟩ }
      else
        { counters := { cnt with errors := cnt.errors + 1 },
          ops := [.delete c.uid sourceFolder], record := none }
    else
      { counters := { cnt with kept := cnt.kept + 1 }, ops := [],
        record := some ⟨c.uid, fromAddr, subject, "keep", "",
          String.append "Unknown action: " action⟩ }

/-- C8 as stated: any classification with an unrecognised action yields
no IMAP operation, a recorded keep and an incremented kept counter. -/
def C8_claim : Prop :=
  ∀ (cfg : ApplyConfig) (src : String) (emailMap : String → Option Email)
    (c : Classification) (imapOk : Bool) (cnt : Counters),
    c.action ≠ "keep" → c.action ≠ "inbox" →
    fileActions.contains c.action = false →
    trashActions.contains c.action = false →
    (applyStep cfg src emailMap c imapOk cnt).ops = [] ∧
    (applyStep cfg src emailMap c imapOk cnt).counters =
      { cnt with kept := cnt.kept + 1 } ∧
    ∃ rec, (applyStep cfg src emailMap c imapOk cnt).record = some rec ∧
      rec.action = "keep"

/-! ## src/worker.py — batch runners (C4)

run_folder_batch and run_inbox_batch, restricted to the observable
effects the claim discusses: the UPDATE of the runs row, the terminal
done event payload, and whether the classify and apply stages run.
The classification and apply results of a non-empty batch enter as the
applyRes parameter. -/

/-- A JSON scalar in a job_events payload. -/
inductive EventVal where
  | n (v : Nat)
  | b (v : Bool)
  | s (v : String)
deriving Repr, DecidableEq

/-- A done-event payload: JSON object as key-value pairs. -/
abbrev EventPayload := List (String × EventVal)

/-- Observable outcome of one worker batch. -/
structure BatchOutcome where
  runStatusDone : Bool
  finishedAtSet : Bool
  totalWritten : Option Nat
  donePayload : Option EventPayload
  classifyCalled : Bool
  applyCalled : Bool
deriving Repr, DecidableEq

/-- run_folder_batch (src/worker.py lines 113-198).  The empty-fetch
branch (lines 150-160) marks the run done with total 0 and emits a
done event whose payload is empty:true, total_in_folder:0; the
non-empty branch classifies, applies, finalises the run and emits the
counter payload with remaining = max(0, total_in_folder - fetched). -/
def run_folder_batch (emails : List Email) (totalInFolder : Nat)
    (applyRes : Counters) : BatchOutcome :=
  if emails.isEmpty then
    ⟨true, true, some 0,
      some [("empty", .b true), ("total_in_folder", .n 0)], false, false⟩
  else
    ⟨true, true, some emails.length,
      some [("kept", .n applyRes.kept), ("filed", .n applyRes.filed),
        ("trashed", .n applyRes.trashed), ("errors", .n applyRes.errors),
        ("skipped", .n applyRes.skipped),
        ("remaining", .n (totalInFolder - emails.length))], true, true⟩

/-- run_inbox_batch (src/worker.py lines 201-267).  The empty-fetch
branch (lines 228-238) marks the run done with total 0 and emits a
done event with total:0 and zero counters. -/
def run_inbox_batch (emails : List Email) (applyRes : Counters) :
    BatchOutcome :=
  if emails.isEmpty then
    ⟨true, true, some 0,
      some [("total", .n 0), ("kept", .n 0), ("filed", .n 0),
        ("trashed", .n 0), ("errors", .n 0), ("skipped", .n 0)], false, false⟩
  else
    ⟨true, true, some emails.length,
      some [("total", .n emails.length), ("kept", .n applyRes.kept),
        ("filed", .n applyRes.filed), ("trashed", .n applyRes.trashed),
        ("errors", .n applyRes.errors), ("skipped", .n applyRes.skipped)],
      true, true⟩

/-- C4 as stated: for BOTH runners, an empty fetch marks the run done
with total 0 and finished_at set, emits a done event whose payload
contains total:0, and performs no classification or apply work. -/
def C4_claim : Prop :=
  ∀ (totalInFolder : Nat) (applyRes : Counters),
    ((run_folder_batch [] totalInFolder applyRes).runStatusDone = true ∧
      (run_folder_batch [] totalInFolder applyRes).finishedAtSet = true ∧
      (run_folder_batch [] totalInFolder applyRes).totalWritten = some 0 ∧
      (run_folder_batch [] totalInFolder applyRes).classifyCalled = false ∧
      (run_folder_batch [] totalInFolder applyRes).applyCalled = false ∧
      ∃ p, (run_folder_batch [] totalInFolder applyRes).donePayload = some p ∧
        ("total", EventVal.n 0) ∈ p) ∧
    ((run_inbox_batch [] applyRes).runStatusDone = true ∧
      (run_inbox_batch [] applyRes).finishedAtSet = true ∧
      (run_inbox_batch [] applyRes).totalWritten = some 0 ∧
      (run_inbox_batch [] applyRes).classifyCalled = false ∧
      (run_inbox_batch [] applyRes).applyCalled = false ∧
      ∃ p, (run_inbox_batch [] applyRes).donePayload = some p ∧
        ("total", EventVal.n 0) ∈ p)

/-! ## core.orchestrator.run_folder_job — job state machine (C5)

Transition system over the folder_jobs row fields the claim discusses.
Transitions come from run_folder_job (src/core/orchestrator.py), the
app.py pause/resume endpoints, and the two folder_jobs writes done on
behalf of a live worker (total_remaining, src/worker.py lines 143-148).
The active flag tracks whether a worker container of this job is live
(set by a launch, cleared when the orchestrator records its exit);
workers only write while live. -/

inductive JobStatus where
  | idle
  | running
  | paused
  | completed
  | error
deriving Repr, DecidableEq

/-- The folder_jobs columns the claim mentions (total_remaining has
SQL default -1, completed_at default NULL). -/
structure JobState where
  status : JobStatus
  enabled : Bool
  totalRemaining : Int
  completedAt : Option Int
  active : Bool
deriving Repr, DecidableEq

/-- Observable actions of a transition. -/
inductive OLabel where
  | launchRun
  | emitDone
  | observeRunTotal (n : Nat)
deriving Repr, DecidableEq

/-- One transition of the orchestrator machine. -/
inductive OStep : JobState → List OLabel → JobState → Prop where
  /-- run_folder_job starts: writes status running (line 82); the
  orphan wait guarantees no live container at this point. -/
  | start (s) (h : s.active = false) :
      OStep s [] { s with status := .running }
  /-- app.py enable/disable endpoints flip enabled only. -/
  | setEnabled (s) (b : Bool) :
      OStep s [] { s with enabled := b }
  /-- app.py pause endpoint: enabled 0, status paused. -/
  | apiPause (s) :
      OStep s [] { s with enabled := false, status := .paused }
  /-- app.py resume endpoint: enabled 1, status idle. -/
  | apiResume (s) :
      OStep s [] { s with enabled := true, status := .idle }
  /-- Loop head observes enabled = 0 (lines 126-132). -/
  | pauseObserved (s) (hr : s.status = .running) (he : s.enabled = false) :
      OStep s [] { s with status := .paused }
  /-- Container launch raised (lines 169-185). -/
  | launchFailed (s) (hr : s.status = .running) :
      OStep s [] { s with status := .error }
  /-- A batch container is launched (lines 134-168). -/
  | launchBatch (s) (hr : s.status = .running) (he : s.enabled = true)
      (ha : s.active = false) :
      OStep s [.launchRun] { s with active := true }
  /-- The live worker writes total_remaining (worker.py 143-148). -/
  | workerRemaining (s) (n : Nat) (ha : s.active = true) :
      OStep s [] { s with totalRemaining := (n : Int) }
  /-- Worker exited non-zero (lines 214-219). -/
  | workerExitError (s) (hr : s.status = .running) (ha : s.active = true) :
      OStep s [] { s with status := .error, active := false }
  /-- Worker exited cleanly with run total 0 (lines 229-240): the only
  transition into completed; writes all three fields together and
  emits the terminal done event. -/
  | workerExitZero (s) (now : Int) (hr : s.status = .running)
      (ha : s.active = true) :
      OStep s [.observeRunTotal 0, .emitDone]
        { s with
          status := .completed
          totalRemaining := 0
          completedAt := some now
          active := false }
  /-- Worker exited cleanly with work done: loop continues. -/
  | workerExitWork (s) (n : Nat) (hr : s.status = .running)
      (ha : s.active = true) (hn : n ≠ 0) :
      OStep s [.observeRunTotal n] { s with active := false }

/-- A freshly created folder_jobs row (app.py create_folder_job +
schema defaults): status idle, no completed_at, no live container. -/
def JobInit (s : JobState) : Prop :=
  s.status = .idle ∧ s.completedAt = none ∧ s.active = false

/-- States reachable from a freshly created job. -/
inductive JobReachable : JobState → Prop where
  | init (s) (h : JobInit s) : JobReachable s
  | step (s l s2) (h : JobReachable s) (hs : OStep s l s2) : JobReachable s2

/-! ## core.scheduler (C9) -/

/-- The schedules row fields the scheduler loop touches. -/
structure Schedule where
  enabled : Bool
  intervalMinutes : Option Nat
  intervalHours : Nat
  nextRun : Option Int
  lastRun : Option Int
deriving Repr, DecidableEq

/-- The runs row written for one schedule firing. -/
structure SchedRun where
  status : String
  finishedAt : Option Int
deriving Repr, DecidableEq

/-- sched_delta (src/core/scheduler.py lines 68-76): interval_minutes
when present and non-zero (Python truthiness), else interval_hours. -/
def sched_delta (s : Schedule) : Int :=
  match s.intervalMinutes with
  | some m => if m ≠ 0 then (m : Int) * 60 else (s.intervalHours : Int) * 3600
  | none => (s.intervalHours : Int) * 3600

/-- fire_schedule (src/core/scheduler.py lines 24-65): with missing
credentials nothing is inserted; otherwise a runs row is created, and
if the container launch raises, the run is marked error with
finished_at = now; the exception does not escape. -/
def fire_schedule (credsOk launchOk : Bool) (now : Int) : Option SchedRun :=
  if !credsOk then none
  else if launchOk then some ⟨"running", none⟩
  else some ⟨"error", some now⟩

/-- One pass of scheduler_loop over a single enabled schedule
(src/core/scheduler.py lines 85-100): initialise next_run when
missing; when next_run is due, fire and then advance next_run and set
last_run unconditionally. -/
def scheduler_step (credsOk launchOk : Bool) (now : Int) (s : Schedule) :
    Schedule × Option SchedRun :=
  if !s.enabled then (s, none)
  else
    match s.nextRun with
    | none => ({ s with nextRun := some (now + sched_delta s) }, none)
    | some nr =>
      if nr ≤ now then
        ({ s with nextRun := some (now + sched_delta s), lastRun := some now },
          fire_schedule credsOk launchOk now)
      else (s, none)

/-! ## core.manifest.sanitise_custom_prompt (C6)

Python strings are lists of characters; re.sub with an empty
replacement is modelled as a leftmost scan that tries the ten
alternatives of _INJECTION_PATTERNS in order at each position, skips
the matched text, and copies the character when nothing matches.  The
individual patterns are deterministic enough that their backtracking
collapses to the greedy readings implemented below (a greedy \s* or
\s+ before a non-whitespace literal has a unique viable split, and the
optional pieces are decided by one lookahead).  IGNORECASE is applied
by lowercasing the subject character before comparison.  Recursions on
the remainder after a match use an explicit fuel bounded by the list
length so that terms evaluate by kernel reduction. -/

/-- The ASCII whitespace class of Python \s and str.strip. -/
def isSpaceCh (c : Char) : Bool :=
  decide (c = ' ' ∨ c = '\t' ∨ c = '\n' ∨ c = '\r' ∨ c = '\x0b' ∨ c = '\x0c')

/-- ASCII str.lower on one character. -/
def toLowerCh (c : Char) : Char :=
  if 'A' ≤ c ∧ c ≤ 'Z' then Char.ofNat (c.toNat + 32) else c

/-- The regex word class \w (ASCII). -/
def isWordCh (c : Char) : Bool :=
  decide (('a' ≤ c ∧ c ≤ 'z') ∨ ('A' ≤ c ∧ c ≤ 'Z') ∨
    ('0' ≤ c ∧ c ≤ '9') ∨ c = '_')

/-- Consume a literal pattern (given lowercase) case-insensitively,
returning the remainder. -/
def eatCI : List Char → List Char → Option (List Char)
  | [], l => some l
  | _ :: _, [] => none
  | p :: ps, c :: cs => if toLowerCh c == p then eatCI ps cs else none

/-- Consume one exact (non-letter) character. -/
def eatCh (x : Char) : List Char → Option (List Char)
  | c :: cs => if c == x then some cs else none
  | [] => none

/-- Greedy \s*. -/
def wsRest (l : List Char) : List Char := l.dropWhile isSpaceCh

/-- Greedy \s+ (at least one whitespace character). -/
def wsPlus : List Char → Option (List Char)
  | c :: cs => if isSpaceCh c then some (wsRest cs) else none
  | [] => none

/-- Optional single character (regex x?), never failing. -/
def optCh (x : Char) (l : List Char) : List Char :=
  match eatCh x l with
  | some r => r
  | none => l

/-- Pattern 1: </?system\s*> . -/
def mSystemTag (l : List Char) : Option (List Char) :=
  match eatCh '<' l with
  | none => none
  | some r =>
    match eatCI "system".data (optCh '/' r) with
    | none => none
    | some r2 => eatCh '>' (wsRest r2)

/-- Pattern 2: \[/?INST\] . -/
def mInstTag (l : List Char) : Option (List Char) :=
  match eatCh '[' l with
  | none => none
  | some r =>
    match eatCI "inst".data (optCh '/' r) with
    | none => none
    | some r2 => eatCh ']' r2

/-- Shared tail previous\s+instructions? of patterns 3 and 4. -/
def mPrevTail (l : List Char) : Option (List Char) :=
  match eatCI "previous".data l with
  | none => none
  | some r =>
    match wsPlus r with
    | none => none
    | some r2 =>
      match eatCI "instruction".data r2 with
      | none => none
      | some r3 =>
        match r3 with
        | c :: rest => if toLowerCh c == 's' then some rest else some r3
        | [] => some r3

/-- Shared tail \s+(all\s+)?previous\s+instructions? : the optional
group backtracks to the groupless reading when its continuation
fails. -/
def mIgnoreTail (l : List Char) : Option (List Char) :=
  match wsPlus l with
  | none => none
  | some r =>
    match eatCI "all".data r with
    | none => mPrevTail r
    | some ra =>
      match wsPlus ra with
      | none => mPrevTail r
      | some r2 =>
        match mPrevTail r2 with
        | some out => some out
        | none => mPrevTail r

/-- Pattern 3: ignore\s+(all\s+)?previous\s+instructions? . -/
def mIgnore (l : List Char) : Option (List Char) :=
  match eatCI "ignore".data l with
  | none => none
  | some r => mIgnoreTail r

/-- Pattern 4: disregard\s+(all\s+)?previous\s+instructions? . -/
def mDisregard (l : List Char) : Option (List Char) :=
  match eatCI "disregard".data l with
  | none => none
  | some r => mIgnoreTail r

/-- Pattern 5: you\s+are\s+now\b . -/
def mYouAreNow (l : List Char) : Option (List Char) :=
  match eatCI "you".data l with
  | none => none
  | some r =>
    match wsPlus r with
    | none => none
    | some r2 =>
      match eatCI "are".data r2 with
      | none => none
      | some r3 =>
        match wsPlus r3 with
        | none => none
        | some r4 =>
          match eatCI "now".data r4 with
          | none => none
          | some r5 =>
            match r5 with
            | [] => some []
            | c :: _ => if isWordCh c then none else some r5

/-- Pattern 6: new\s+instructions?: . -/
def mNewInstr (l : List Char) : Option (List Char) :=
  match eatCI "new".data l with
  | none => none
  | some r =>
    match wsPlus r with
    | none => none
    | some r2 =>
      match eatCI "instruction".data r2 with
      | none => none
      | some r3 =>
        match r3 with
        | c :: d :: rest =>
          if toLowerCh c == 's' && d == ':' then some rest
          else if c == ':' then some (d :: rest) else none
        | [c] => if c == ':' then some [] else none
        | [] => none

/-- Pattern 7: system\s+prompt: . -/
def mSystemPr (l : List Char) : Option (List Char) :=
  match eatCI "system".data l with
  | none => none
  | some r =>
    match wsPlus r with
    | none => none
    | some r2 =>
      match eatCI "prompt".data r2 with
      | none => none
      | some r3 => eatCh ':' r3

/-- Pattern 8: </?\s*prompt\s*> . -/
def mPromptTag (l : List Char) : Option (List Char) :=
  match eatCh '<' l with
  | none => none
  | some r =>
    match eatCI "prompt".data (wsRest (optCh '/' r)) with
    | none => none
    | some r2 => eatCh '>' (wsRest r2)

/-- Pattern 9: <\|[^|]*\|> , special tokens such as im_start. -/
def mSpecial (l : List Char) : Option (List Char) :=
  match eatCh '<' l with
  | none => none
  | some r =>
    match eatCh '|' r with
    | none => none
    | some r2 =>
      match eatCh '|' (r2.dropWhile (fun c => !(c == '|'))) with
      | none => none
      | some r3 => eatCh '>' r3

/-- Pattern 10: ---+\s*system\s*---+ . -/
def mDashSystem (l : List Char) : Option (List Char) :=
  let d := (l.takeWhile (fun c => c == '-')).length
  if d < 3 then none
  else
    match eatCI "system".data (wsRest (l.drop d)) with
    | none => none
    | some r =>
      let r2 := wsRest r
      let e := (r2.takeWhile (fun c => c == '-')).length
      if e < 3 then none else some (r2.drop e)

/-- One attempt of _INJECTION_RE at the current position: the
alternatives in list order, first success wins; returns the remainder
after the matched text. -/
def tryMatch (l : List Char) : Option (List Char) :=
  mSystemTag l <|> mInstTag l <|> mIgnore l <|> mDisregard l <|>
    mYouAreNow l <|> mNewInstr l <|> mSystemPr l <|> mPromptTag l <|>
    mSpecial l <|> mDashSystem l

/-- Fuelled leftmost-scan substitution of all matches by nothing. -/
def sanSubF : Nat → List Char → List Char
  | 0, _ => []
  | _ + 1, [] => []
  | f + 1, c :: rest =>
    match tryMatch (c :: rest) with
    | some rem => sanSubF f rem
    | none => c :: sanSubF f rest

/-- _INJECTION_RE.sub of the empty string (every match consumes at
least one character, so length-many fuel always suffices). -/
def sanSub (l : List Char) : List Char := sanSubF l.length l

/-- Fuelled whitespace-run collapse. -/
def collapseF : Nat → List Char → List Char
  | 0, _ => []
  | _ + 1, [] => []
  | f + 1, c :: rest =>
    if isSpaceCh c then ' ' :: collapseF f (rest.dropWhile isSpaceCh)
    else c :: collapseF f rest

/-- re.sub of \s+ by one space: each maximal whitespace run becomes a
single space. -/
def collapseWs (l : List Char) : List Char := collapseF l.length l

/-- Remove trailing whitespace. -/
def rstripWs : List Char → List Char
  | [] => []
  | c :: rest =>
    let r := rstripWs rest
    if r.isEmpty && isSpaceCh c then [] else c :: r

/-- str.strip: remove leading and trailing whitespace. -/
def stripWs (l : List Char) : List Char := rstripWs (l.dropWhile isSpaceCh)

/-- core.manifest.sanitise_custom_prompt (src/core/manifest.py lines
38-47): empty string short-circuits; otherwise remove the injection
patterns, collapse whitespace, strip, and truncate to 500
characters. -/
def sanitise_custom_prompt (l : List Char) : List Char :=
  if l = [] then []
  else (stripWs (collapseWs (sanSub l))).take 500

/-- Scan of _INJECTION_RE.search: does any position match. -/
def hasMatch : List Char → Bool
  | [] => false
  | c :: rest => (tryMatch (c :: rest)).isSome || hasMatch rest

/-- Every whitespace character is a plain space and no two spaces are
adjacent: the shape of collapseWs output. -/
def collapsedOk : List Char → Bool
  | [] => true
  | [c] => !isSpaceCh c || c == ' '
  | c :: d :: rest =>
    (!isSpaceCh c || c == ' ') && !(c == ' ' && d == ' ') &&
      collapsedOk (d :: rest)

/-- Does the string start with whitespace. -/
def headIsSpace : List Char → Bool
  | [] => false
  | c :: _ => isSpaceCh c

/-- Does the string end with whitespace. -/
def lastIsSpace : List Char → Bool
  | [] => false
  | [c] => isSpaceCh c
  | _ :: rest => lastIsSpace rest

/-- C6 as stated: the sanitiser is idempotent on every input string. -/
def C6_claim : Prop :=
  ∀ s : List Char,
    sanitise_custom_prompt (sanitise_custom_prompt s) = sanitise_custom_prompt s

/-! ## core.cache.email_hash (C7)

email_hash is SHA-256 over lower(from).strip() + three pipes + the
normalised subject, where normalisation lowercases, strips, removes
every occurrence of the regex (word-boundary)(re|fwd?|fw):(ws-star),
and collapses whitespace runs.  SHA-256 is implemented executably on
byte lists; the invariance proofs only use it through congruence. -/

/-- One round-of-scan match of the cache regex at the current
position.  pw says whether the previous character was a word
character: the leading word boundary fails exactly when it is (the
pattern starts with the word character r or f).  The alternation
(re|fwd?|fw): collapses to three literal probes in order; the trailing
greedy ws-star is wsRest.  A match always ends with a colon or
whitespace, so the scan resumes with pw false. -/
def cacheMatch (pw : Bool) (l : List Char) : Option (List Char) :=
  if pw then none
  else
    match eatCI "re:".data l with
    | some r => some (wsRest r)
    | none =>
      match eatCI "fwd:".data l with
      | some r => some (wsRest r)
      | none =>
        match eatCI "fw:".data l with
        | some r => some (wsRest r)
        | none => none

/-- Fuelled leftmost scan of the cache regex substitution. -/
def cacheSubF : Nat → Bool → List Char → List Char
  | 0, _, _ => []
  | _ + 1, _, [] => []
  | f + 1, pw, c :: rest =>
    match cacheMatch pw (c :: rest) with
    | some rem => cacheSubF f false rem
    | none => c :: cacheSubF f (isWordCh c) rest

/-- re.sub of the Re/Fwd pattern by the empty string. -/
def cacheSub (pw : Bool) (l : List Char) : List Char := cacheSubF l.length pw l

/-- The normalised subject (src/core/cache.py lines 17-18): lowercase,
strip, remove the Re/Fwd patterns, collapse whitespace. -/
def normSubject (subject : List Char) : List Char :=
  collapseWs (cacheSub false (stripWs (subject.map toLowerCh)))

/-- The cache key (line 19): lower(from).strip() + three pipes +
normalised subject. -/
def emailKey (fromAddr subject : List Char) : List Char :=
  stripWs (fromAddr.map toLowerCh) ++ "|||".data ++ normSubject subject

/-! SHA-256 (hashlib.sha256.hexdigest), executable on byte lists. -/

def rotr32 (n x : Nat) : Nat :=
  ((x >>> n) ||| (x <<< (32 - n))) % 4294967296

def shaK : List Nat :=
  [1116352408, 1899447441, 3049323471, 3921009573,
   961987163, 1508970993, 2453635748, 2870763221,
   3624381080, 310598401, 607225278, 1426881987,
   1925078388, 2162078206, 2614888103, 3248222580,
   3835390401, 4022224774, 264347078, 604807628,
   770255983, 1249150122, 1555081692, 1996064986,
   2554220882, 2821834349, 2952996808, 3210313671,
   3336571891, 3584528711, 113926993, 338241895,
   666307205, 773529912, 1294757372, 1396182291,
   1695183700, 1986661051, 2177026350, 2456956037,
   2730485921, 2820302411, 3259730800, 3345764771,
   3516065817, 3600352804, 4094571909, 275423344,
   430227734, 506948616, 659060556, 883997877,
   958139571, 1322822218, 1537002063, 1747873779,
   1955562222, 2024104815, 2227730452, 2361852424,
   2428436474, 2756734187, 3204031479, 3329325298]

def shaH0 : List Nat :=
  [1779033703, 3144134277, 1013904242, 2773480762,
   1359893119, 2600822924, 528734635, 1541459225]

/-- UTF-8 encoding of one character (str.encode). -/
def utf8Char (c : Char) : List Nat :=
  let n := c.toNat
  if n < 128 then [n]
  else if n < 2048 then [192 + n / 64, 128 + n % 64]
  else if n < 65536 then
    [224 + n / 4096, 128 + n / 64 % 64, 128 + n % 64]
  else
    [240 + n / 262144, 128 + n / 4096 % 64, 128 + n / 64 % 64, 128 + n % 64]

def utf8Bytes (l : List Char) : List Nat := (l.map utf8Char).flatten

/-- SHA-256 padding: 0x80, zeros to 56 mod 64, 8-byte big-endian bit
length. -/
def padMsg (msg : List Nat) : List Nat :=
  let len := msg.length
  let bitLen := 8 * len
  let zeros := (119 - len % 64) % 64
  msg ++ [128] ++ List.replicate zeros 0 ++
    [bitLen / 72057594037927936 % 256, bitLen / 281474976710656 % 256,
     bitLen / 1099511627776 % 256, bitLen / 4294967296 % 256,
     bitLen / 16777216 % 256, bitLen / 65536 % 256,
     bitLen / 256 % 256, bitLen % 256]

def bytesToWords : List Nat → List Nat
  | b0 :: b1 :: b2 :: b3 :: rest =>
    (b0 * 16777216 + b1 * 65536 + b2 * 256 + b3) :: bytesToWords rest
  | _ => []

/-- Message-schedule extension by one word, iterated n times. -/
def shaExtendF : Nat → List Nat → List Nat
  | 0, w => w
  | n + 1, w =>
    let i := w.length
    let w15 := w.getD (i - 15) 0
    let w2 := w.getD (i - 2) 0
    let w16 := w.getD (i - 16) 0
    let w7 := w.getD (i - 7) 0
    let s0 := (rotr32 7 w15) ^^^ (rotr32 18 w15) ^^^ (w15 >>> 3)
    let s1 := (rotr32 17 w2) ^^^ (rotr32 19 w2) ^^^ (w2 >>> 10)
    shaExtendF n (w ++ [(w16 + s0 + w7 + s1) % 4294967296])

/-- One compression round. -/
def shaRound (st : List Nat) (kw : Nat × Nat) : List Nat :=
  match st with
  | [a, b, c, d, e, f, g, h] =>
    let s1 := (rotr32 6 e) ^^^ (rotr32 11 e) ^^^ (rotr32 25 e)
    let ch := (e &&& f) ^^^ ((e ^^^ 4294967295) &&& g)
    let temp1 := (h + s1 + ch + kw.1 + kw.2) % 4294967296
    let s0 := (rotr32 2 a) ^^^ (rotr32 13 a) ^^^ (rotr32 22 a)
    let maj := (a &&& b) ^^^ (a &&& c) ^^^ (b &&& c)
    let temp2 := (s0 + maj) % 4294967296
    [(temp1 + temp2) % 4294967296, a, b, c, (d + temp1) % 4294967296, e, f, g]
  | _ => st

/-- Process one 64-byte block. -/
def shaBlock (hv : List Nat) (block : List Nat) : List Nat :=
  let w := shaExtendF 48 (bytesToWords block)
  let st := (shaK.zip w).foldl shaRound hv
  (hv.zip st).map (fun p => (p.1 + p.2) % 4294967296)

/-- Split into 64-byte chunks (fuelled by the list length). -/
def chunks64F : Nat → List Nat → List (List Nat)
  | 0, _ => []
  | _ + 1, [] => []
  | f + 1, l => (l.take 64) :: chunks64F f (l.drop 64)

def hexDigit (n : Nat) : Char :=
  if n < 10 then Char.ofNat (48 + n) else Char.ofNat (87 + n)

def wordHex (w : Nat) : List Char :=
  [hexDigit (w / 268435456 % 16), hexDigit (w / 16777216 % 16),
   hexDigit (w / 1048576 % 16), hexDigit (w / 65536 % 16),
   hexDigit (w / 4096 % 16), hexDigit (w / 256 % 16),
   hexDigit (w / 16 % 16), hexDigit (w % 16)]

/-- SHA-256 hexdigest of a byte list. -/
def sha256hex (msg : List Nat) : List Char :=
  (((chunks64F (padMsg msg).length (padMsg msg)).foldl shaBlock shaH0).map
    wordHex).flatten

/-- core.cache.email_hash (src/core/cache.py lines 15-20). -/
def email_hash (fromAddr subject : List Char) : List Char :=
  sha256hex (utf8Bytes (emailKey fromAddr subject))

/-! ### Whitespace runs, dropWhile and rstrip. -/

/-- Every character is whitespace. -/
def allWs (l : List Char) : Prop := ∀ c ∈ l, isSpaceCh c = true

/-- Some character is not whitespace. -/
def hasNonWs (l : List Char) : Prop := ∃ c ∈ l, isSpaceCh c = false

instance (l : List Char) : Decidable (allWs l) :=
  List.decidableBAll _ l

instance (l : List Char) : Decidable (hasNonWs l) :=
  List.decidableBEx _ l

/-! ## Theorems -/

/-- C1 counterexample: with rate_limit_per_hour = 1, two classifications
arriving one second apart both start within the window [0, 3600): the
second caller is denied, sleeps min(3599, 60) = 60 seconds, and then
performs its action anyway, because the loop body never re-checks the
gate after the sleep. -/
theorem C1_counterexample : ¬ C1_claim := fun h =>
  absurd (h 1 0 [0, 1] [0, 61] 0 (by decide)) (by decide)

/-- C1 (amended): the limiter caps the RECORDED timestamps, not the
action starts.  One gate check preserves the bound on recorded
timestamps, keeps every recorded timestamp inside the last 3600
seconds, and on denial consumes no slot: the caller sleeps
min(wait, 60) once and proceeds without retrying the gate. -/
theorem C1_gate_amended (m : Nat) (now : Int) (st : RateLimiter)
    (b : Bool) (w : Int) (st2 : RateLimiter)
    (h : check_and_record m now st = some (b, w, st2)) :
    (st.timestamps.length ≤ m → st2.timestamps.length ≤ m) ∧
    ((∀ t ∈ st.timestamps, t ≤ now) →
      ∀ t ∈ st2.timestamps, now - 3600 < t ∧ t ≤ now) ∧
    (b = false →
      st2.timestamps = st.timestamps.filter (fun t => now - 3600 < t) ∧
      applyGate m now st = some (now + min w 60, st2)) := by
  simp only [check_and_record] at h
  by_cases hle : m ≤ (st.timestamps.filter (fun t => now - 3600 < t)).length
  · rw [if_pos hle] at h
    rcases hk : st.timestamps.filter (fun t => now - 3600 < t) with _ | ⟨t0, rest⟩
    · rw [hk] at h; cases h
    · rw [hk] at h
      obtain ⟨hb, hw, hst⟩ : false = b ∧ t0 + 3600 - now = w ∧
          RateLimiter.mk (t0 :: rest) = st2 := by
        simpa [Prod.mk.injEq] using h
      subst hb; subst hw; subst hst
      have hsub : ∀ t ∈ t0 :: rest, t ∈ st.timestamps ∧ now - 3600 < t := by
        intro t ht
        rw [← hk] at ht
        exact ⟨List.mem_of_mem_filter ht, by simpa using List.of_mem_filter ht⟩
      refine ⟨fun hlen => ?_, fun hnow t ht => ?_, fun _ => ⟨rfl, ?_⟩⟩
      · have h1 : (t0 :: rest).length =
            (st.timestamps.filter (fun t => now - 3600 < t)).length := by rw [hk]
        exact le_trans (le_of_eq h1)
          (le_trans (List.length_filter_le _ st.timestamps) hlen)
      · exact ⟨(hsub t ht).2, hnow t (hsub t ht).1⟩
      · simp only [applyGate, check_and_record]
        rw [if_pos hle, hk]
  · rw [if_neg hle] at h
    obtain ⟨hb, hw, hst⟩ : true = b ∧ (0 : Int) = w ∧
        RateLimiter.mk (st.timestamps.filter (fun t => now - 3600 < t) ++ [now])
          = st2 := by
      simpa [Prod.mk.injEq] using h
    subst hb; subst hw; subst hst
    refine ⟨fun _ => ?_, fun hnow t ht => ?_, fun hf => by simp at hf⟩
    · have hlt := Nat.lt_of_not_le hle
      simp only [List.length_append, List.length_cons, List.length_nil]
      omega
    · rcases List.mem_append.mp ht with ht2 | ht2
      · exact ⟨by simpa using List.of_mem_filter ht2,
          hnow t (List.mem_of_mem_filter ht2)⟩
      · rw [List.mem_singleton] at ht2; subst ht2
        constructor <;> omega

/-- C1 amended witness: one concrete denied gate check (limit 1, one
recorded timestamp still in the window). -/
theorem C1_gate_amended_witness :
    check_and_record 1 1000 ⟨[500]⟩ = some (false, 3100, ⟨[500]⟩) ∧
    ((RateLimiter.mk [500]).timestamps =
        (RateLimiter.mk [500]).timestamps.filter (fun t => 1000 - 3600 < t) ∧
      applyGate 1 1000 ⟨[500]⟩ = some (1000 + min 3100 60, ⟨[500]⟩)) :=
  ⟨by decide,
    (C1_gate_amended 1 1000 ⟨[500]⟩ false 3100 ⟨[500]⟩ (by decide)).2.2 rfl⟩

/-- C10: a denied check_and_record consumes no slot: the stored list is
exactly the old list with the stale entries (at or before now - 3600)
filtered out, and the returned wait is the time until the oldest
surviving timestamp leaves the one-hour window. -/
theorem C10_denial_frame (m : Nat) (now : Int) (st : RateLimiter)
    (w : Int) (st2 : RateLimiter)
    (hs : st.timestamps.Sorted (· ≤ ·))
    (h : check_and_record m now st = some (false, w, st2)) :
    st2.timestamps = st.timestamps.filter (fun t => now - 3600 < t) ∧
    ∃ t0 rest, st2.timestamps = t0 :: rest ∧ w = t0 + 3600 - now ∧
      ∀ t ∈ st2.timestamps, t0 ≤ t := by
  simp only [check_and_record] at h
  by_cases hle : m ≤ (st.timestamps.filter (fun t => now - 3600 < t)).length
  · rw [if_pos hle] at h
    rcases hk : st.timestamps.filter (fun t => now - 3600 < t) with _ | ⟨t0, rest⟩
    · rw [hk] at h; cases h
    · rw [hk] at h
      obtain ⟨hw, hst⟩ : t0 + 3600 - now = w ∧ RateLimiter.mk (t0 :: rest) = st2 := by
        simpa [Prod.mk.injEq] using h
      subst hw; subst hst
      refine ⟨rfl, t0, rest, rfl, rfl, fun t ht => ?_⟩
      have hsf : (st.timestamps.filter (fun t => now - 3600 < t)).Sorted (· ≤ ·) :=
        List.Pairwise.filter _ hs
      rw [hk] at hsf
      rcases List.mem_cons.mp ht with ht2 | ht2
      · exact le_of_eq ht2.symm
      · exact (List.pairwise_cons.mp hsf).1 t ht2
  · rw [if_neg hle] at h
    simp [Prod.mk.injEq] at h

/-- C10 witness: limit 2, stored [100, 500, 1000] at time 4000: the
entry 100 (age 3900) is dropped, the two surviving entries fill the
window, and the denial reports wait 500 + 3600 - 4000 = 100. -/
theorem C10_denial_frame_witness :
    (RateLimiter.mk [500, 1000]).timestamps =
      (RateLimiter.mk [100, 500, 1000]).timestamps.filter
        (fun t => 4000 - 3600 < t) ∧
    ∃ t0 rest, (RateLimiter.mk [500, 1000]).timestamps = t0 :: rest ∧
      (100 : Int) = t0 + 3600 - 4000 ∧
      ∀ t ∈ (RateLimiter.mk [500, 1000]).timestamps, t0 ≤ t :=
  C10_denial_frame 2 4000 ⟨[100, 500, 1000]⟩ 100 ⟨[500, 1000]⟩
    (by decide) (by decide)

/-- C2: in a non-folder-cleanup run, a classification for an unread
message whose action is outside the trash set is recorded as skip
(skipped incremented, no IMAP operation), and the same holds for a
trash action when delete_marketing_unread is off. -/
theorem C2_unread_gate (cfg : ApplyConfig) (src : String)
    (emailMap : String → Option Email) (c : Classification) (imapOk : Bool)
    (cnt : Counters) (e : Email)
    (hfj : cfg.isFolderJob = false)
    (he : emailMap c.uid = some e) (hseen : e.isSeen = false) :
    (trashActions.contains c.action = false →
      (applyStep cfg src emailMap c imapOk cnt).ops = [] ∧
      (applyStep cfg src emailMap c imapOk cnt).counters =
        { cnt with skipped := cnt.skipped + 1 } ∧
      ∃ reason, (applyStep cfg src emailMap c imapOk cnt).record =
        some ⟨c.uid, e.fromAddr, e.subject, "skip", "", reason⟩) ∧
    (trashActions.contains c.action = true → cfg.delMktUnread = false →
      (applyStep cfg src emailMap c imapOk cnt).ops = [] ∧
      (applyStep cfg src emailMap c imapOk cnt).counters =
        { cnt with skipped := cnt.skipped + 1 } ∧
      ∃ reason, (applyStep cfg src emailMap c imapOk cnt).record =
        some ⟨c.uid, e.fromAddr, e.subject, "skip", "", reason⟩) := by
  have hFrom : origFrom emailMap c = e.fromAddr := by
    simp [origFrom, he]
  have hSubj : origSubject emailMap c = e.subject := by
    simp [origSubject, he]
  have hSeen : origSeen emailMap c = false := by
    simp [origSeen, he, hseen]
  by_cases hflag : (cfg.skipFlagged && origFlagged emailMap c) = true
  · constructor
    · intro _
      simp only [applyStep]
      rw [if_pos hflag]
      exact ⟨rfl, rfl, "Flagged email — skipped", by rw [hFrom, hSubj]⟩
    · intro _ _
      simp only [applyStep]
      rw [if_pos hflag]
      exact ⟨rfl, rfl, "Flagged email — skipped", by rw [hFrom, hSubj]⟩
  · have hact : (if cfg.isFolderJob && c.action == "keep"
        then "inbox" else c.action) = c.action := by
      rw [hfj, Bool.false_and, if_neg Bool.false_ne_true]
    constructor
    · intro hna
      have hc2 : (!cfg.isFolderJob && !origSeen emailMap c
          && !(trashActions.contains c.action)) = true := by
        rw [hfj, hSeen, hna]; rfl
      simp only [applyStep]
      rw [if_neg hflag, hact, if_pos hc2]
      exact ⟨rfl, rfl, "Unread — skipped", by rw [hFrom, hSubj]⟩
    · intro hta hdm
      have hc2 : (!cfg.isFolderJob && !origSeen emailMap c
          && !(trashActions.contains c.action)) = false := by
        rw [hfj, hSeen, hta]; rfl
      have hc3 : (!cfg.isFolderJob && !origSeen emailMap c
          && trashActions.contains c.action && !cfg.delMktUnread) = true := by
        rw [hfj, hSeen, hta, hdm]; rfl
      simp only [applyStep]
      rw [if_neg hflag, hact, if_neg (by rw [hc2]; exact Bool.false_ne_true),
        if_pos hc3]
      exact ⟨rfl, rfl, "Unread marketing — skipped (enable delete_marketing_unread to trash)",
        by rw [hFrom, hSubj]⟩

/-- C2 witness: a concrete unread non-trash classification in an inbox
run is skipped. -/
theorem C2_unread_gate_witness :
    (trashActions.contains "keep" = false →
      (applyStep ⟨false, false, true⟩ "INBOX"
        (fun _ => some ⟨"7", "a@b.c", "hello", false, false⟩)
        ⟨"7", "keep", "", "", false, "", ""⟩ true ⟨0, 0, 0, 0, 0⟩).ops = [] ∧
      (applyStep ⟨false, false, true⟩ "INBOX"
        (fun _ => some ⟨"7", "a@b.c", "hello", false, false⟩)
        ⟨"7", "keep", "", "", false, "", ""⟩ true ⟨0, 0, 0, 0, 0⟩).counters =
        { (⟨0, 0, 0, 0, 0⟩ : Counters) with skipped := 0 + 1 } ∧
      ∃ reason, (applyStep ⟨false, false, true⟩ "INBOX"
        (fun _ => some ⟨"7", "a@b.c", "hello", false, false⟩)
        ⟨"7", "keep", "", "", false, "", ""⟩ true ⟨0, 0, 0, 0, 0⟩).record =
        some ⟨"7", "a@b.c", "hello", "skip", "", reason⟩) ∧
    (trashActions.contains "keep" = true → false = false →
      (applyStep ⟨false, false, true⟩ "INBOX"
        (fun _ => some ⟨"7", "a@b.c", "hello", false, false⟩)
        ⟨"7", "keep", "", "", false, "", ""⟩ true ⟨0, 0, 0, 0, 0⟩).ops = [] ∧
      (applyStep ⟨false, false, true⟩ "INBOX"
        (fun _ => some ⟨"7", "a@b.c", "hello", false, false⟩)
        ⟨"7", "keep", "", "", false, "", ""⟩ true ⟨0, 0, 0, 0, 0⟩).counters =
        { (⟨0, 0, 0, 0, 0⟩ : Counters) with skipped := 0 + 1 } ∧
      ∃ reason, (applyStep ⟨false, false, true⟩ "INBOX"
        (fun _ => some ⟨"7", "a@b.c", "hello", false, false⟩)
        ⟨"7", "keep", "", "", false, "", ""⟩ true ⟨0, 0, 0, 0, 0⟩).record =
        some ⟨"7", "a@b.c", "hello", "skip", "", reason⟩) :=
  C2_unread_gate ⟨false, false, true⟩ "INBOX"
    (fun _ => some ⟨"7", "a@b.c", "hello", false, false⟩)
    ⟨"7", "keep", "", "", false, "", ""⟩ true ⟨0, 0, 0, 0, 0⟩
    ⟨"7", "a@b.c", "hello", false, false⟩ rfl rfl rfl

/-- C3: in a folder_cleanup run, a keep classification for a message
that passes the flagged filter is rewritten to inbox / INBOX, executed
as an IMAP move to INBOX, and counted in filed. -/
theorem C3_folder_keep_rewrite (cfg : ApplyConfig) (src : String)
    (emailMap : String → Option Email) (c : Classification)
    (cnt : Counters)
    (hfj : cfg.isFolderJob = true) (hk : c.action = "keep")
    (hfl : (cfg.skipFlagged && origFlagged emailMap c) = false) :
    applyStep cfg src emailMap c true cnt =
      ⟨{ cnt with filed := cnt.filed + 1 },
        [.move c.uid src "INBOX"],
        some ⟨c.uid, origFrom emailMap c, origSubject emailMap c,
          "inbox", "INBOX", c.reason⟩⟩ := by
  have hrw : (cfg.isFolderJob && c.action == "keep") = true := by
    rw [hfj, hk]; rfl
  simp only [applyStep]
  rw [if_neg (by simp [hfl]), if_pos hrw]
  rw [if_neg (by simp [hfj]), if_neg (by simp [hfj])]
  rw [if_neg (by simp), if_pos (by simp)]
  simp

/-- C3 witness: a concrete folder-job keep classification moved to
INBOX. -/
theorem C3_folder_keep_rewrite_witness :
    applyStep ⟨true, false, true⟩ "Archive"
      (fun _ => some ⟨"9", "x@y.z", "subj", true, false⟩)
      ⟨"9", "keep", "", "why", false, "", ""⟩ true ⟨1, 2, 3, 4, 5⟩ =
      ⟨{ (⟨1, 2, 3, 4, 5⟩ : Counters) with filed := 2 + 1 },
        [.move "9" "Archive" "INBOX"],
        some ⟨"9",
          origFrom (fun _ => some ⟨"9", "x@y.z", "subj", true, false⟩)
            ⟨"9", "keep", "", "why", false, "", ""⟩,
          origSubject (fun _ => some ⟨"9", "x@y.z", "subj", true, false⟩)
            ⟨"9", "keep", "", "why", false, "", ""⟩,
          "inbox", "INBOX", "why"⟩⟩ :=
  C3_folder_keep_rewrite ⟨true, false, true⟩ "Archive"
    (fun _ => some ⟨"9", "x@y.z", "subj", true, false⟩)
    ⟨"9", "keep", "", "why", false, "", ""⟩ ⟨1, 2, 3, 4, 5⟩ rfl rfl rfl

/-- C8 counterexample: an unread message in an inbox run with the
unrecognised action banana is caught by the unread gate first: it is
recorded as skip and kept stays unchanged, contradicting the claim. -/
theorem C8_counterexample : ¬ C8_claim := fun h => by
  have h2 := (h ⟨false, false, true⟩ "INBOX"
    (fun _ => some ⟨"1", "a@b.c", "s", false, false⟩)
    ⟨"1", "banana", "", "", false, "", ""⟩ true ⟨0, 0, 0, 0, 0⟩
    (by decide) (by decide) (by decide) (by decide)).2.1
  exact absurd h2 (by decide)

/-- C8 (amended): for a classification that passes the flagged filter
and the unread gate (folder job, or message seen), an unrecognised
action yields no IMAP operation, a recorded keep and kept + 1 — also
in folder_cleanup runs, where the keep rewrite only fires on the
literal action keep, so the message stays in the drained folder. -/
theorem C8_unknown_action_amended (cfg : ApplyConfig) (src : String)
    (emailMap : String → Option Email) (c : Classification) (imapOk : Bool)
    (cnt : Counters)
    (hfl : (cfg.skipFlagged && origFlagged emailMap c) = false)
    (hgate : cfg.isFolderJob = true ∨ origSeen emailMap c = true)
    (h1 : c.action ≠ "keep") (h2 : c.action ≠ "inbox")
    (h3 : fileActions.contains c.action = false)
    (h4 : trashActions.contains c.action = false) :
    applyStep cfg src emailMap c imapOk cnt =
      ⟨{ cnt with kept := cnt.kept + 1 }, [],
        some ⟨c.uid, origFrom emailMap c, origSubject emailMap c, "keep", "",
          String.append "Unknown action: " c.action⟩⟩ := by
  have hrw : (cfg.isFolderJob && c.action == "keep") = false := by
    simp [h1]
  have hgate2 : (!cfg.isFolderJob && !origSeen emailMap c) = false := by
    rcases hgate with hg | hg <;> simp [hg]
  have hb1 : (c.action == "keep") = false := by simp [h1]
  have hb2 : (c.action == "inbox") = false := by simp [h2]
  simp only [applyStep]
  rw [if_neg (by rw [hfl]; exact Bool.false_ne_true)]
  simp only [hb1, hb2, Bool.and_false, hgate2, Bool.false_and, h3, h4,
    Bool.false_eq_true, if_false]

/-- C8 amended witness: a seen message with action banana in an inbox
run falls back to keep. -/
theorem C8_unknown_action_amended_witness :
    applyStep ⟨false, false, true⟩ "INBOX"
      (fun _ => some ⟨"1", "a@b.c", "s", true, false⟩)
      ⟨"1", "banana", "", "", false, "", ""⟩ true ⟨0, 0, 0, 0, 0⟩ =
      ⟨{ (⟨0, 0, 0, 0, 0⟩ : Counters) with kept := 0 + 1 }, [],
        some ⟨"1",
          origFrom (fun _ => some ⟨"1", "a@b.c", "s", true, false⟩)
            ⟨"1", "banana", "", "", false, "", ""⟩,
          origSubject (fun _ => some ⟨"1", "a@b.c", "s", true, false⟩)
            ⟨"1", "banana", "", "", false, "", ""⟩,
          "keep", "", String.append "Unknown action: " "banana"⟩⟩ :=
  C8_unknown_action_amended ⟨false, false, true⟩ "INBOX"
    (fun _ => some ⟨"1", "a@b.c", "s", true, false⟩)
    ⟨"1", "banana", "", "", false, "", ""⟩ true ⟨0, 0, 0, 0, 0⟩
    (by decide) (Or.inr (by decide)) (by decide) (by decide) (by decide)
    (by decide)

/-- C4 counterexample: the empty-fetch done event of a folder_cleanup
run carries empty:true and total_in_folder:0 but no total key at all,
so its payload does not contain total:0. -/
theorem C4_counterexample : ¬ C4_claim := fun h => by
  obtain ⟨p, hp, hm⟩ := (h 0 ⟨0, 0, 0, 0, 0⟩).1.2.2.2.2.2
  rw [show (run_folder_batch [] 0 ⟨0, 0, 0, 0, 0⟩).donePayload =
      some [("empty", EventVal.b true), ("total_in_folder", EventVal.n 0)]
    from rfl] at hp
  injection hp with hp
  subst hp
  exact absurd hm (by decide)

/-- C4 (amended): an empty fetch marks the run done with total 0 and
finished_at set and runs neither classify nor apply, in both runners;
the done payload contains total:0 for inbox and scheduled runs, and
empty:true with total_in_folder:0 (no total key) for folder runs. -/
theorem C4_empty_fetch_amended (totalInFolder : Nat) (applyRes : Counters) :
    run_folder_batch [] totalInFolder applyRes =
      ⟨true, true, some 0,
        some [("empty", .b true), ("total_in_folder", .n 0)], false, false⟩ ∧
    run_inbox_batch [] applyRes =
      ⟨true, true, some 0,
        some [("total", .n 0), ("kept", .n 0), ("filed", .n 0),
          ("trashed", .n 0), ("errors", .n 0), ("skipped", .n 0)],
        false, false⟩ :=
  ⟨rfl, rfl⟩

/-- Strengthened inductive invariant: completed implies
total_remaining 0, completed_at set, and no live container. -/
theorem job_inv (s : JobState) (h : JobReachable s) :
    s.status = .completed →
    s.totalRemaining = 0 ∧ s.completedAt ≠ none ∧ s.active = false := by
  induction h with
  | init s h =>
    intro hc
    rw [h.1] at hc
    exact absurd hc (by decide)
  | step s l s2 h hs ih =>
    intro hc
    cases hs with
    | start h2 => simp at hc
    | setEnabled b => exact ih hc
    | apiPause => simp at hc
    | apiResume => simp at hc
    | pauseObserved hr he => simp at hc
    | launchFailed hr => simp at hc
    | launchBatch hr he ha =>
      exact absurd (hr.symm.trans hc) (by decide)
    | workerRemaining n ha =>
      exact absurd ha (by rw [(ih hc).2.2]; exact Bool.false_ne_true)
    | workerExitError hr ha => simp at hc
    | workerExitZero now hr ha => exact ⟨rfl, by simp, rfl⟩
    | workerExitWork n hr ha hn =>
      exact absurd (hr.symm.trans hc) (by decide)

/-- C5: in every reachable state, completed implies total_remaining 0
and completed_at set; the only transition into completed observes a
run with total 0, writes all three fields together, emits the
terminal done event and launches nothing; and no transition out of a
completed state launches a batch. -/
theorem C5_completed_invariant :
    (∀ s, JobReachable s → s.status = .completed →
      s.totalRemaining = 0 ∧ s.completedAt ≠ none) ∧
    (∀ s l s2, OStep s l s2 → s.status ≠ .completed →
      s2.status = .completed →
      ∃ now, l = [.observeRunTotal 0, .emitDone] ∧
        s2.totalRemaining = 0 ∧ s2.completedAt = some now ∧
        OLabel.launchRun ∉ l) ∧
    (∀ s l s2, OStep s l s2 → s.status = .completed →
      OLabel.launchRun ∉ l) := by
  refine ⟨fun s h hc => ⟨(job_inv s h hc).1, (job_inv s h hc).2.1⟩,
    fun s l s2 hs hnc hc => ?_, fun s l s2 hs hc => ?_⟩
  · cases hs with
    | start h2 => simp at hc
    | setEnabled b => exact absurd hc hnc
    | apiPause => simp at hc
    | apiResume => simp at hc
    | pauseObserved hr he => simp at hc
    | launchFailed hr => simp at hc
    | launchBatch hr he ha => exact absurd hc hnc
    | workerRemaining n ha => exact absurd hc hnc
    | workerExitError hr ha => simp at hc
    | workerExitZero now hr ha =>
      exact ⟨now, rfl, rfl, rfl, by decide⟩
    | workerExitWork n hr ha hn => exact absurd hc hnc
  · cases hs with
    | start h2 => exact List.not_mem_nil _
    | setEnabled b => exact List.not_mem_nil _
    | apiPause => exact List.not_mem_nil _
    | apiResume => exact List.not_mem_nil _
    | pauseObserved hr he => exact List.not_mem_nil _
    | launchFailed hr => exact List.not_mem_nil _
    | launchBatch hr he ha =>
      exact absurd (hc.symm.trans hr) (by decide)
    | workerRemaining n ha => exact List.not_mem_nil _
    | workerExitError hr ha => exact List.not_mem_nil _
    | workerExitZero now hr ha =>
      exact absurd (hc.symm.trans hr) (by decide)
    | workerExitWork n hr ha hn =>
      exact absurd (hc.symm.trans hr) (by decide)

/-- C5 witness: a job completed along the concrete run
idle, start, launch, worker exits with total 0, has
total_remaining 0 and completed_at set. -/
theorem C5_completed_invariant_witness :
    (JobState.mk .completed true 0 (some 7) false).totalRemaining = 0 ∧
    (JobState.mk .completed true 0 (some 7) false).completedAt ≠ none :=
  C5_completed_invariant.1 _
    (by
      have h0 : JobReachable ⟨.idle, true, -1, none, false⟩ :=
        .init _ ⟨rfl, rfl, rfl⟩
      have h1 : JobReachable ⟨.running, true, -1, none, false⟩ :=
        .step _ _ _ h0 (.start _ rfl)
      have h2 : JobReachable ⟨.running, true, -1, none, true⟩ :=
        .step _ _ _ h1 (.launchBatch _ rfl rfl rfl)
      exact .step _ _ _ h2 (.workerExitZero _ 7 rfl rfl))
    rfl

/-- C9: when the container launch raises during a due firing, the run
is marked error with finished_at set, the schedule row advances
next_run and last_run exactly as on a successful launch, and no
firing happens again before the new next_run. -/
theorem C9_launch_failure (credsOk : Bool) (now nr : Int) (s : Schedule)
    (he : s.enabled = true) (hn : s.nextRun = some nr) (hd : nr ≤ now)
    (hc : credsOk = true) :
    (scheduler_step credsOk false now s).2 = some ⟨"error", some now⟩ ∧
    (scheduler_step credsOk false now s).1 =
      (scheduler_step credsOk true now s).1 ∧
    (scheduler_step credsOk false now s).1 =
      { s with nextRun := some (now + sched_delta s), lastRun := some now } ∧
    (∀ (credsOk2 launchOk2 : Bool) (now2 : Int),
      now2 < now + sched_delta s →
      (scheduler_step credsOk2 launchOk2 now2
        (scheduler_step credsOk false now s).1).2 = none) := by
  have h1 : scheduler_step credsOk false now s =
      ({ s with nextRun := some (now + sched_delta s), lastRun := some now },
        some ⟨"error", some now⟩) := by
    simp [scheduler_step, he, hn, hd, fire_schedule, hc]
  have h2 : scheduler_step credsOk true now s =
      ({ s with nextRun := some (now + sched_delta s), lastRun := some now },
        some ⟨"running", none⟩) := by
    simp [scheduler_step, he, hn, hd, fire_schedule, hc]
  refine ⟨by rw [h1], by rw [h1, h2], by rw [h1], ?_⟩
  intro credsOk2 launchOk2 now2 hlt
  rw [h1]
  simp only [scheduler_step, he, Bool.not_true, Bool.false_eq_true, if_false]
  rw [if_neg (not_le.mpr hlt)]

/-- C9 witness: a due schedule (every 5 minutes, next_run 100, clock
101) whose launch raises: run error with finished_at 101, row advanced
like a success. -/
theorem C9_launch_failure_witness :
    (scheduler_step true false 101 ⟨true, some 5, 0, some 100, none⟩).2 =
      some ⟨"error", some 101⟩ ∧
    (scheduler_step true false 101 ⟨true, some 5, 0, some 100, none⟩).1 =
      (scheduler_step true true 101 ⟨true, some 5, 0, some 100, none⟩).1 :=
  ⟨(C9_launch_failure true 101 100 ⟨true, some 5, 0, some 100, none⟩
      rfl rfl (by decide) rfl).1,
    (C9_launch_failure true 101 100 ⟨true, some 5, 0, some 100, none⟩
      rfl rfl (by decide) rfl).2.1⟩

/-! ### Match lengths: every injection-pattern match consumes at least
one character, so the fuelled scans never exhaust their fuel. -/

theorem eatCh_lt (x : Char) (l r : List Char) (h : eatCh x l = some r) :
    r.length < l.length := by
  cases l with
  | nil => cases h
  | cons c cs =>
    simp only [eatCh] at h
    by_cases hc : (c == x) = true
    · rw [if_pos hc] at h
      injection h with h
      subst h
      simp
    · rw [if_neg hc] at h; cases h

theorem eatCI_length (pat : List Char) : ∀ l r, eatCI pat l = some r →
    r.length + pat.length = l.length := by
  induction pat with
  | nil =>
    intro l r h
    simp only [eatCI] at h
    injection h with h
    subst h
    simp
  | cons p ps ih =>
    intro l r h
    cases l with
    | nil => cases h
    | cons c cs =>
      simp only [eatCI] at h
      by_cases hc : (toLowerCh c == p) = true
      · rw [if_pos hc] at h
        have := ih cs r h
        simp only [List.length_cons]
        omega
      · rw [if_neg hc] at h; cases h

theorem eatCI_le (pat l r : List Char) (h : eatCI pat l = some r) :
    r.length ≤ l.length := by
  have := eatCI_length pat l r h
  omega

theorem eatCI_lt (p : Char) (ps l r : List Char)
    (h : eatCI (p :: ps) l = some r) : r.length < l.length := by
  have := eatCI_length (p :: ps) l r h
  simp only [List.length_cons] at this
  omega

theorem wsRest_le (l : List Char) : (wsRest l).length ≤ l.length :=
  (List.dropWhile_sublist isSpaceCh).length_le

theorem wsPlus_lt (l r : List Char) (h : wsPlus l = some r) :
    r.length < l.length := by
  cases l with
  | nil => cases h
  | cons c cs =>
    simp only [wsPlus] at h
    by_cases hc : isSpaceCh c = true
    · rw [if_pos hc] at h
      injection h with h
      subst h
      exact Nat.lt_succ_of_le (wsRest_le cs)
    · rw [if_neg hc] at h; cases h

theorem optCh_le (x : Char) (l : List Char) : (optCh x l).length ≤ l.length := by
  simp only [optCh]
  rcases h : eatCh x l with _ | r
  · exact le_refl _
  · exact le_of_lt (eatCh_lt x l r h)

theorem mPrevTail_lt (l r : List Char) (h : mPrevTail l = some r) :
    r.length < l.length := by
  unfold mPrevTail at h
  split at h
  · exact Option.noConfusion h
  next r1 h1 =>
    split at h
    · exact Option.noConfusion h
    next r2 h2 =>
      split at h
      · exact Option.noConfusion h
      next r3 h3 =>
        have e1 := eatCI_lt _ _ _ _ h1
        have e2 := wsPlus_lt _ _ h2
        have e3 := eatCI_le _ _ _ h3
        split at h
        next c rest =>
          split at h <;> (injection h with h; subst h) <;>
            simp only [List.length_cons] at e3 ⊢ <;> omega
        next =>
          injection h with h
          subst h
          omega

theorem mIgnoreTail_lt (l r : List Char) (h : mIgnoreTail l = some r) :
    r.length < l.length := by
  unfold mIgnoreTail at h
  split at h
  · exact Option.noConfusion h
  next r1 h1 =>
    have e1 := wsPlus_lt _ _ h1
    split at h
    · exact lt_trans (mPrevTail_lt _ _ h) e1
    next ra h2 =>
      split at h
      · exact lt_trans (mPrevTail_lt _ _ h) e1
      next r2 h3 =>
        split at h
        next out h4 =>
          injection h with h
          subst h
          have e2 := eatCI_le _ _ _ h2
          have e3 := wsPlus_lt _ _ h3
          have e4 := mPrevTail_lt _ _ h4
          omega
        next => exact lt_trans (mPrevTail_lt _ _ h) e1

theorem mSystemTag_lt (l r : List Char) (h : mSystemTag l = some r) :
    r.length < l.length := by
  unfold mSystemTag at h
  split at h
  · exact Option.noConfusion h
  next r1 h1 =>
    split at h
    · exact Option.noConfusion h
    next r2 h2 =>
      have e1 := eatCh_lt _ _ _ h1
      have e2 := le_trans (eatCI_le _ _ _ h2) (optCh_le '/' r1)
      have e3 := lt_of_lt_of_le (eatCh_lt _ _ _ h) (wsRest_le r2)
      omega

theorem mInstTag_lt (l r : List Char) (h : mInstTag l = some r) :
    r.length < l.length := by
  unfold mInstTag at h
  split at h
  · exact Option.noConfusion h
  next r1 h1 =>
    split at h
    · exact Option.noConfusion h
    next r2 h2 =>
      have e1 := eatCh_lt _ _ _ h1
      have e2 := le_trans (eatCI_le _ _ _ h2) (optCh_le '/' r1)
      have e3 := eatCh_lt _ _ _ h
      omega

theorem mIgnore_lt (l r : List Char) (h : mIgnore l = some r) :
    r.length < l.length := by
  unfold mIgnore at h
  split at h
  · exact Option.noConfusion h
  next r1 h1 => exact lt_of_lt_of_le (mIgnoreTail_lt _ _ h) (eatCI_le _ _ _ h1)

theorem mDisregard_lt (l r : List Char) (h : mDisregard l = some r) :
    r.length < l.length := by
  unfold mDisregard at h
  split at h
  · exact Option.noConfusion h
  next r1 h1 => exact lt_of_lt_of_le (mIgnoreTail_lt _ _ h) (eatCI_le _ _ _ h1)

theorem mYouAreNow_lt (l r : List Char) (h : mYouAreNow l = some r) :
    r.length < l.length := by
  unfold mYouAreNow at h
  split at h
  · exact Option.noConfusion h
  next r1 h1 =>
    split at h
    · exact Option.noConfusion h
    next r2 h2 =>
      split at h
      · exact Option.noConfusion h
      next r3 h3 =>
        split at h
        · exact Option.noConfusion h
        next r4 h4 =>
          split at h
          · exact Option.noConfusion h
          next r5 h5 =>
            have e1 := eatCI_lt _ _ _ _ h1
            have e2 := wsPlus_lt _ _ h2
            have e3 := eatCI_le _ _ _ h3
            have e4 := wsPlus_lt _ _ h4
            have e5 := eatCI_le _ _ _ h5
            split at h
            next =>
              injection h with h
              subst h
              simp only [List.length_nil] at e5 ⊢
              omega
            next c cs =>
              split at h
              · exact Option.noConfusion h
              · injection h with h
                subst h
                omega

theorem mNewInstr_lt (l r : List Char) (h : mNewInstr l = some r) :
    r.length < l.length := by
  unfold mNewInstr at h
  split at h
  · exact Option.noConfusion h
  next r1 h1 =>
    split at h
    · exact Option.noConfusion h
    next r2 h2 =>
      split at h
      · exact Option.noConfusion h
      next r3 h3 =>
        have e1 := eatCI_lt _ _ _ _ h1
        have e2 := wsPlus_lt _ _ h2
        have e3 := eatCI_le _ _ _ h3
        split at h
        next c d rest =>
          split at h
          · injection h with h
            subst h
            simp only [List.length_cons] at e3 ⊢
            omega
          · split at h
            · injection h with h
              subst h
              simp only [List.length_cons] at e3 ⊢
              omega
            · exact Option.noConfusion h
        next c =>
          split at h
          · injection h with h
            subst h
            simp only [List.length_cons, List.length_nil] at e3 ⊢
            omega
          · exact Option.noConfusion h
        next => exact Option.noConfusion h

theorem mSystemPr_lt (l r : List Char) (h : mSystemPr l = some r) :
    r.length < l.length := by
  unfold mSystemPr at h
  split at h
  · exact Option.noConfusion h
  next r1 h1 =>
    split at h
    · exact Option.noConfusion h
    next r2 h2 =>
      split at h
      · exact Option.noConfusion h
      next r3 h3 =>
        have e1 := eatCI_lt _ _ _ _ h1
        have e2 := wsPlus_lt _ _ h2
        have e3 := eatCI_le _ _ _ h3
        have e4 := eatCh_lt _ _ _ h
        omega

theorem mPromptTag_lt (l r : List Char) (h : mPromptTag l = some r) :
    r.length < l.length := by
  unfold mPromptTag at h
  split at h
  · exact Option.noConfusion h
  next r1 h1 =>
    split at h
    · exact Option.noConfusion h
    next r2 h2 =>
      have e1 := eatCh_lt _ _ _ h1
      have e2 := le_trans (eatCI_le _ _ _ h2)
        (le_trans (wsRest_le _) (optCh_le '/' r1))
      have e3 := lt_of_lt_of_le (eatCh_lt _ _ _ h) (wsRest_le r2)
      omega

theorem mSpecial_lt (l r : List Char) (h : mSpecial l = some r) :
    r.length < l.length := by
  unfold mSpecial at h
  split at h
  · exact Option.noConfusion h
  next r1 h1 =>
    split at h
    · exact Option.noConfusion h
    next r2 h2 =>
      split at h
      · exact Option.noConfusion h
      next r3 h3 =>
        have e1 := eatCh_lt _ _ _ h1
        have e2 := eatCh_lt _ _ _ h2
        have e3 := lt_of_lt_of_le (eatCh_lt _ _ _ h3)
          ((List.dropWhile_sublist _).length_le)
        have e4 := eatCh_lt _ _ _ h
        omega

theorem mDashSystem_lt (l r : List Char) (h : mDashSystem l = some r) :
    r.length < l.length := by
  simp only [mDashSystem] at h
  split at h
  · exact Option.noConfusion h
  next hd =>
    split at h
    · exact Option.noConfusion h
    next r1 h1 =>
      split at h
      · exact Option.noConfusion h
      next he =>
        injection h with h
        subst h
        have e0 : (l.takeWhile (fun c => c == '-')).length ≤ l.length :=
          (List.takeWhile_sublist _).length_le
        have e1 := eatCI_lt _ _ _ _ h1
        have e2 : (wsRest (l.drop (l.takeWhile (fun c => c == '-')).length)).length ≤
            (l.drop (l.takeWhile (fun c => c == '-')).length).length :=
          wsRest_le _
        have e3 : (l.drop (l.takeWhile (fun c => c == '-')).length).length =
            l.length - (l.takeWhile (fun c => c == '-')).length :=
          List.length_drop _ _
        have e4 : ((wsRest r1).drop
            ((wsRest r1).takeWhile (fun c => c == '-')).length).length =
            (wsRest r1).length -
              ((wsRest r1).takeWhile (fun c => c == '-')).length :=
          List.length_drop _ _
        have e5 := wsRest_le r1
        omega

theorem orAux (a b : Option (List Char)) (r : List Char)
    (h : (a <|> b) = some r) : a = some r ∨ b = some r := by
  cases a <;> simp_all

theorem tryMatch_lt (l r : List Char) (h : tryMatch l = some r) :
    r.length < l.length := by
  unfold tryMatch at h
  rcases orAux _ _ _ h with h | h
  · exact mSystemTag_lt _ _ h
  rcases orAux _ _ _ h with h | h
  · exact mInstTag_lt _ _ h
  rcases orAux _ _ _ h with h | h
  · exact mIgnore_lt _ _ h
  rcases orAux _ _ _ h with h | h
  · exact mDisregard_lt _ _ h
  rcases orAux _ _ _ h with h | h
  · exact mYouAreNow_lt _ _ h
  rcases orAux _ _ _ h with h | h
  · exact mNewInstr_lt _ _ h
  rcases orAux _ _ _ h with h | h
  · exact mSystemPr_lt _ _ h
  rcases orAux _ _ _ h with h | h
  · exact mPromptTag_lt _ _ h
  rcases orAux _ _ _ h with h | h
  · exact mSpecial_lt _ _ h
  exact mDashSystem_lt _ _ h

/-! ### Unfolding equations for the fuelled scans. -/

theorem sanSubF_eq : ∀ (f : Nat) (l : List Char), l.length ≤ f →
    sanSubF f l = sanSub l := by
  intro f
  induction f using Nat.strong_induction_on with
  | _ f ih =>
    intro l hl
    cases f with
    | zero =>
      cases l with
      | nil => rfl
      | cons c rest => simp at hl
    | succ f =>
      cases l with
      | nil => rfl
      | cons c rest =>
        simp only [List.length_cons] at hl
        have hr : rest.length ≤ f := by omega
        have hs : sanSub (c :: rest) = sanSubF (rest.length + 1) (c :: rest) := rfl
        rw [hs]
        rcases h : tryMatch (c :: rest) with _ | rem <;>
          simp only [sanSubF, h]
        · rw [ih f (Nat.lt_succ_self f) rest hr,
            ih rest.length (by omega) rest (le_refl _)]
        · have hlt := tryMatch_lt _ _ h
          simp only [List.length_cons] at hlt
          rw [ih f (Nat.lt_succ_self f) rem (by omega),
            ih rest.length (by omega) rem (by omega)]

theorem sanSub_cons (c : Char) (rest : List Char) :
    sanSub (c :: rest) =
      match tryMatch (c :: rest) with
      | some rem => sanSub rem
      | none => c :: sanSub rest := by
  have hs : sanSub (c :: rest) = sanSubF (rest.length + 1) (c :: rest) := rfl
  rw [hs]
  rcases h : tryMatch (c :: rest) with _ | rem <;> simp only [sanSubF, h]
  · rw [sanSubF_eq rest.length rest (le_refl _)]
  · have hlt := tryMatch_lt _ _ h
    simp only [List.length_cons] at hlt
    rw [sanSubF_eq rest.length rem (by omega)]

theorem collapseF_eq : ∀ (f : Nat) (l : List Char), l.length ≤ f →
    collapseF f l = collapseWs l := by
  intro f
  induction f using Nat.strong_induction_on with
  | _ f ih =>
    intro l hl
    cases f with
    | zero =>
      cases l with
      | nil => rfl
      | cons c rest => simp at hl
    | succ f =>
      cases l with
      | nil => rfl
      | cons c rest =>
        simp only [List.length_cons] at hl
        have hr : rest.length ≤ f := by omega
        have hs : collapseWs (c :: rest) = collapseF (rest.length + 1) (c :: rest) :=
          rfl
        rw [hs]
        simp only [collapseF]
        by_cases hc : isSpaceCh c = true
        · rw [if_pos hc, if_pos hc]
          have hd : (rest.dropWhile isSpaceCh).length ≤ rest.length :=
            (List.dropWhile_sublist isSpaceCh).length_le
          rw [ih f (Nat.lt_succ_self f) _ (by omega),
            ih rest.length (by omega) _ (by omega)]
        · rw [if_neg hc, if_neg hc]
          rw [ih f (Nat.lt_succ_self f) rest hr,
            ih rest.length (by omega) rest (le_refl _)]

theorem collapseWs_cons (c : Char) (rest : List Char) :
    collapseWs (c :: rest) =
      if isSpaceCh c then ' ' :: collapseWs (rest.dropWhile isSpaceCh)
      else c :: collapseWs rest := by
  have hs : collapseWs (c :: rest) = collapseF (rest.length + 1) (c :: rest) := rfl
  rw [hs]
  simp only [collapseF]
  by_cases hc : isSpaceCh c = true
  · rw [if_pos hc, if_pos hc,
      collapseF_eq rest.length _ ((List.dropWhile_sublist isSpaceCh).length_le)]
  · rw [if_neg hc, if_neg hc, collapseF_eq rest.length rest (le_refl _)]

/-! ### The second sanitising pass is the identity on match-free,
collapsed, stripped output. -/

theorem sanSub_of_noMatch : ∀ l : List Char, hasMatch l = false →
    sanSub l = l := by
  intro l
  induction l with
  | nil => intro _; rfl
  | cons c rest ih =>
    intro h
    simp only [hasMatch, Bool.or_eq_false_iff] at h
    rw [sanSub_cons]
    rcases ht : tryMatch (c :: rest) with _ | rem
    · simp only []
      rw [ih h.2]
    · rw [ht] at h
      simp at h

theorem nonws_ne_space (c : Char) (h : isSpaceCh c = false) :
    (c == ' ') = false := by
  by_cases hc : c = ' '
  · subst hc; simp [isSpaceCh] at h
  · simp [hc]

theorem collapsedOk_tail (c : Char) (l : List Char)
    (h : collapsedOk (c :: l) = true) : collapsedOk l = true := by
  cases l with
  | nil => rfl
  | cons d rest =>
    simp only [collapsedOk, Bool.and_eq_true] at h
    exact h.2

theorem collapsedOk_head (c : Char) (l : List Char)
    (h : collapsedOk (c :: l) = true) : (!isSpaceCh c || c == ' ') = true := by
  cases l with
  | nil => exact h
  | cons d rest =>
    simp only [collapsedOk, Bool.and_eq_true] at h
    exact h.1.1

theorem collapsedOk_pair (c d : Char) (l : List Char)
    (h : collapsedOk (c :: d :: l) = true) : (c == ' ' && d == ' ') = false := by
  simp only [collapsedOk, Bool.and_eq_true] at h
  have := h.1.2
  cases hx : (c == ' ' && d == ' ') with
  | false => rfl
  | true => rw [hx] at this; cases this

theorem dropWhile_head_false (p : Char → Bool) :
    ∀ (l : List Char) (d : Char) (xs : List Char),
    l.dropWhile p = d :: xs → p d = false := by
  intro l
  induction l with
  | nil => intro d xs h; cases h
  | cons a as ih =>
    intro d xs h
    by_cases ha : p a = true
    · rw [List.dropWhile_cons_of_pos ha] at h
      exact ih d xs h
    · rw [List.dropWhile_cons_of_neg ha] at h
      injection h with h1 h2
      subst h1
      exact Bool.eq_false_iff.mpr ha

theorem collapsedOk_collapseAux : ∀ (n : Nat) (l : List Char), l.length ≤ n →
    collapsedOk (collapseWs l) = true := by
  intro n
  induction n with
  | zero =>
    intro l hl
    have : l = [] := List.length_eq_zero.mp (Nat.le_zero.mp hl)
    subst this
    rfl
  | succ n ih =>
    intro l hl
    cases l with
    | nil => rfl
    | cons c rest =>
      simp only [List.length_cons] at hl
      by_cases hc : isSpaceCh c = true
      · rw [collapseWs_cons, if_pos hc]
        rcases hx : rest.dropWhile isSpaceCh with _ | ⟨d, xs⟩
        · decide
        · have hd : isSpaceCh d = false := dropWhile_head_false _ rest d xs hx
          have hrec : collapsedOk (collapseWs (d :: xs)) = true := by
            apply ih
            have hsub : (rest.dropWhile isSpaceCh).length ≤ rest.length :=
              (List.dropWhile_sublist isSpaceCh).length_le
            rw [hx] at hsub
            simp only [List.length_cons] at hsub ⊢
            omega
          rw [collapseWs_cons, if_neg (by rw [hd]; exact Bool.false_ne_true)] at hrec
          rw [collapseWs_cons, if_neg (by rw [hd]; exact Bool.false_ne_true)]
          rcases hy : collapseWs xs with _ | ⟨e, ys⟩ <;> rw [hy] at hrec
          · simp only [collapsedOk, Bool.and_eq_true]
            refine ⟨⟨by decide, ?_⟩, hrec⟩
            simp [nonws_ne_space d hd]
          · simp only [collapsedOk, Bool.and_eq_true] at hrec ⊢
            refine ⟨⟨by decide, ?_⟩, hrec⟩
            simp [nonws_ne_space d hd]
      · have hc2 : isSpaceCh c = false := Bool.eq_false_iff.mpr hc
        rw [collapseWs_cons, if_neg hc]
        have hrec : collapsedOk (collapseWs rest) = true := ih rest (by omega)
        rcases hy : collapseWs rest with _ | ⟨e, ys⟩ <;> rw [hy] at hrec
        · simp [collapsedOk, hc2]
        · simp only [collapsedOk, Bool.and_eq_true] at hrec ⊢
          refine ⟨⟨?_, ?_⟩, hrec⟩
          · simp [hc2]
          · simp [nonws_ne_space c hc2]

theorem collapsedOk_collapse (l : List Char) :
    collapsedOk (collapseWs l) = true :=
  collapsedOk_collapseAux l.length l (le_refl _)

theorem collapsedOk_take : ∀ (l : List Char), collapsedOk l = true →
    ∀ n, collapsedOk (l.take n) = true := by
  intro l
  induction l with
  | nil =>
    intro h n
    rw [List.take_nil]
    exact h
  | cons c rest ih =>
    intro h n
    cases n with
    | zero => rfl
    | succ n =>
      rw [List.take_succ_cons]
      cases rest with
      | nil =>
        simp only [List.take_nil]
        exact h
      | cons d rest2 =>
        have h1 := collapsedOk_head c _ h
        have h2 := collapsedOk_pair c d _ h
        have h3 := collapsedOk_tail c _ h
        cases n with
        | zero => exact h1
        | succ n =>
          have h4 := ih h3 (n + 1)
          rw [List.take_succ_cons] at h4 ⊢
          simp only [collapsedOk, Bool.and_eq_true]
          exact ⟨⟨h1, by rw [h2]; rfl⟩, h4⟩

theorem collapsedOk_dropWhile (p : Char → Bool) : ∀ l : List Char,
    collapsedOk l = true → collapsedOk (l.dropWhile p) = true := by
  intro l
  induction l with
  | nil => intro h; exact h
  | cons c rest ih =>
    intro h
    by_cases hc : p c = true
    · rw [List.dropWhile_cons_of_pos hc]
      exact ih (collapsedOk_tail c rest h)
    · rw [List.dropWhile_cons_of_neg hc]
      exact h

theorem rstrip_head (a : Char) (X : List Char) (d : Char) (xs : List Char)
    (h : rstripWs (a :: X) = d :: xs) : a = d := by
  simp only [rstripWs] at h
  split at h
  · cases h
  · injection h with h1 h2

theorem collapsedOk_rstrip : ∀ l : List Char, collapsedOk l = true →
    collapsedOk (rstripWs l) = true := by
  intro l
  induction l with
  | nil => intro h; exact h
  | cons c rest ih =>
    intro h
    have hrest := ih (collapsedOk_tail c rest h)
    simp only [rstripWs]
    split
    · rfl
    · next hne =>
      rcases hr : rstripWs rest with _ | ⟨d, xs⟩
      · exact collapsedOk_head c rest h
      · rw [hr] at hrest
        cases rest with
        | nil => cases hr
        | cons a rest2 =>
          have had : a = d := rstrip_head a rest2 d xs hr
          subst had
          have h2 := collapsedOk_pair c a rest2 h
          simp only [collapsedOk, Bool.and_eq_true]
          exact ⟨⟨collapsedOk_head c _ h, by rw [h2]; rfl⟩, hrest⟩

theorem collapse_fix : ∀ l : List Char, collapsedOk l = true →
    collapseWs l = l := by
  intro l
  induction l with
  | nil => intro _; rfl
  | cons c rest ih =>
    intro h
    have hrest := collapsedOk_tail c rest h
    by_cases hc : isSpaceCh c = true
    · have hcsp : c = ' ' := by
        have h1 := collapsedOk_head c rest h
        rw [hc] at h1
        simpa using h1
      rw [collapseWs_cons, if_pos hc]
      have hrw : rest.dropWhile isSpaceCh = rest := by
        cases rest with
        | nil => rfl
        | cons d rest2 =>
          have h2 := collapsedOk_pair c d rest2 h
          rw [hcsp] at h2
          simp only [beq_self_eq_true, Bool.true_and] at h2
          have hd : isSpaceCh d = false := by
            have h3 := collapsedOk_head d rest2 hrest
            cases hds : isSpaceCh d with
            | false => rfl
            | true =>
              rw [hds] at h3
              simp only [Bool.not_true, Bool.false_or] at h3
              rw [h3] at h2
              cases h2
          exact List.dropWhile_cons_of_neg (by rw [hd]; exact Bool.false_ne_true)
      rw [hrw, ih hrest, hcsp]
    · rw [collapseWs_cons, if_neg hc, ih hrest]

theorem rstrip_fix : ∀ l : List Char, lastIsSpace l = false →
    rstripWs l = l := by
  intro l
  induction l with
  | nil => intro _; rfl
  | cons c rest ih =>
    intro h
    cases rest with
    | nil =>
      simp only [lastIsSpace] at h
      simp [rstripWs, h]
    | cons d rest2 =>
      have h2 : lastIsSpace (d :: rest2) = false := h
      have := ih h2
      simp only [rstripWs] at this ⊢
      rw [this]
      rfl

theorem headIsSpace_strip (l : List Char) :
    headIsSpace (stripWs l) = false := by
  have hdw : headIsSpace (l.dropWhile isSpaceCh) = false := by
    rcases hx : l.dropWhile isSpaceCh with _ | ⟨d, xs⟩
    · rfl
    · simp only [headIsSpace]
      exact dropWhile_head_false isSpaceCh l d xs hx
  simp only [stripWs]
  rcases hx : l.dropWhile isSpaceCh with _ | ⟨d, xs⟩
  · rfl
  · rw [hx] at hdw
    rcases hr : rstripWs (d :: xs) with _ | ⟨e, ys⟩
    · rfl
    · have := rstrip_head d xs e ys hr
      subst this
      exact hdw

theorem headIsSpace_take (l : List Char) (n : Nat)
    (h : headIsSpace l = false) : headIsSpace (l.take n) = false := by
  cases l with
  | nil => simp [List.take_nil, headIsSpace]
  | cons c rest =>
    cases n with
    | zero => rfl
    | succ n => rw [List.take_succ_cons]; exact h

theorem dropWhile_of_head_false (l : List Char)
    (h : headIsSpace l = false) : l.dropWhile isSpaceCh = l := by
  cases l with
  | nil => rfl
  | cons c rest =>
    exact List.dropWhile_cons_of_neg (by
      simp only [headIsSpace] at h
      rw [h]
      exact Bool.false_ne_true)

/-- C6 counterexample: removing one occurrence of the
ignore-previous-instructions pattern splices a fresh occurrence
together out of the surrounding text, so the second sanitising pass
removes more: the input sanitises to the non-empty string
ignore previous instructions, which sanitises to the empty string. -/
theorem C6_counterexample : ¬ C6_claim := fun h =>
  absurd (h "ignore ignore previous instructions previous instructions".data)
    (by decide)

/-- C6 (amended): the sanitiser is idempotent on every input whose
sanitised form contains no further injection-pattern match and does
not end in whitespace (the 500-character truncation can cut after a
space); manifest decode re-sanitises custom_prompt, which is the
identity exactly on such fixed points. -/
theorem C6_sanitise_amended (s : List Char)
    (h1 : hasMatch (sanitise_custom_prompt s) = false)
    (h2 : lastIsSpace (sanitise_custom_prompt s) = false) :
    sanitise_custom_prompt (sanitise_custom_prompt s) =
      sanitise_custom_prompt s := by
  by_cases hs : s = []
  · subst hs; rfl
  · have ht : sanitise_custom_prompt s =
        (stripWs (collapseWs (sanSub s))).take 500 := by
      simp only [sanitise_custom_prompt, if_neg hs]
    by_cases htn : sanitise_custom_prompt s = []
    · rw [htn]; rfl
    · have hok : collapsedOk (sanitise_custom_prompt s) = true := by
        rw [ht]
        exact collapsedOk_take _
          (collapsedOk_rstrip _
            (collapsedOk_dropWhile _ _ (collapsedOk_collapse _))) 500
      have hhead : headIsSpace (sanitise_custom_prompt s) = false := by
        rw [ht]
        exact headIsSpace_take _ 500 (headIsSpace_strip _)
      have hsub2 : sanSub (sanitise_custom_prompt s) =
          sanitise_custom_prompt s := sanSub_of_noMatch _ h1
      have hcol2 : collapseWs (sanitise_custom_prompt s) =
          sanitise_custom_prompt s := collapse_fix _ hok
      have hstr2 : stripWs (sanitise_custom_prompt s) =
          sanitise_custom_prompt s := by
        show rstripWs ((sanitise_custom_prompt s).dropWhile isSpaceCh) = _
        rw [dropWhile_of_head_false _ hhead]
        exact rstrip_fix _ h2
      have hlen : (sanitise_custom_prompt s).take 500 =
          sanitise_custom_prompt s := by
        rw [ht, List.take_take]
        norm_num
      have hstep : sanitise_custom_prompt (sanitise_custom_prompt s) =
          (stripWs (collapseWs (sanSub (sanitise_custom_prompt s)))).take 500 := by
        generalize hgen : sanitise_custom_prompt s = t at htn
        simp only [sanitise_custom_prompt, if_neg htn]
      rw [hstep, hsub2, hcol2, hstr2, hlen]

/-- C6 amended witness: a concrete benign prompt is a fixed point. -/
theorem C6_sanitise_amended_witness :
    sanitise_custom_prompt (sanitise_custom_prompt "hello world".data) =
      sanitise_custom_prompt "hello world".data :=
  C6_sanitise_amended "hello world".data (by decide) (by decide)

/-! ### cacheSub unfolding equations. -/

theorem cacheMatch_lt (pw : Bool) (l rem : List Char)
    (h : cacheMatch pw l = some rem) : rem.length < l.length := by
  unfold cacheMatch at h
  split at h
  · cases h
  split at h
  next r h1 =>
    injection h with h
    subst h
    exact lt_of_le_of_lt (wsRest_le r) (eatCI_lt _ _ _ _ h1)
  split at h
  next r h1 =>
    injection h with h
    subst h
    exact lt_of_le_of_lt (wsRest_le r) (eatCI_lt _ _ _ _ h1)
  split at h
  next r h1 =>
    injection h with h
    subst h
    exact lt_of_le_of_lt (wsRest_le r) (eatCI_lt _ _ _ _ h1)
  cases h

theorem cacheSubF_eq : ∀ (f : Nat) (pw : Bool) (l : List Char), l.length ≤ f →
    cacheSubF f pw l = cacheSub pw l := by
  intro f
  induction f using Nat.strong_induction_on with
  | _ f ih =>
    intro pw l hl
    cases f with
    | zero =>
      cases l with
      | nil => rfl
      | cons c rest => simp at hl
    | succ f =>
      cases l with
      | nil => rfl
      | cons c rest =>
        simp only [List.length_cons] at hl
        have hr : rest.length ≤ f := by omega
        have hs : cacheSub pw (c :: rest) = cacheSubF (rest.length + 1) pw (c :: rest) :=
          rfl
        rw [hs]
        rcases h : cacheMatch pw (c :: rest) with _ | rem <;>
          simp only [cacheSubF, h]
        · rw [ih f (Nat.lt_succ_self f) _ rest hr,
            ih rest.length (by omega) _ rest (le_refl _)]
        · have hlt := cacheMatch_lt _ _ _ h
          simp only [List.length_cons] at hlt
          rw [ih f (Nat.lt_succ_self f) _ rem (by omega),
            ih rest.length (by omega) _ rem (by omega)]

theorem cacheSub_cons (pw : Bool) (c : Char) (rest : List Char) :
    cacheSub pw (c :: rest) =
      match cacheMatch pw (c :: rest) with
      | some rem => cacheSub false rem
      | none => c :: cacheSub (isWordCh c) rest := by
  have hs : cacheSub pw (c :: rest) = cacheSubF (rest.length + 1) pw (c :: rest) :=
    rfl
  rw [hs]
  rcases h : cacheMatch pw (c :: rest) with _ | rem <;> simp only [cacheSubF, h]
  · rw [cacheSubF_eq rest.length _ rest (le_refl _)]
  · have hlt := cacheMatch_lt _ _ _ h
    simp only [List.length_cons] at hlt
    rw [cacheSubF_eq rest.length _ rem (by omega)]

theorem ws_toLower (c : Char) (h : isSpaceCh c = true) : toLowerCh c = c := by
  have h2 := of_decide_eq_true h
  rcases h2 with h2 | h2 | h2 | h2 | h2 | h2 <;> subst h2 <;> decide

theorem ws_not_word (c : Char) (h : isSpaceCh c = true) : isWordCh c = false := by
  have h2 := of_decide_eq_true h
  rcases h2 with h2 | h2 | h2 | h2 | h2 | h2 <;> subst h2 <;> decide

theorem ws_beq_false (c d : Char) (hc : isSpaceCh c = true)
    (hd : isSpaceCh d = false) : (toLowerCh c == d) = false := by
  rw [ws_toLower c hc]
  by_cases hcd : c = d
  · subst hcd; rw [hc] at hd; cases hd
  · simp [hcd]

theorem allWs_cons (c : Char) (l : List Char) (h : allWs (c :: l)) :
    isSpaceCh c = true ∧ allWs l :=
  ⟨h c (List.mem_cons_self c l), fun d hd => h d (List.mem_cons_of_mem c hd)⟩

theorem dw_append_ws : ∀ (w : List Char), allWs w → ∀ x : List Char,
    (w ++ x).dropWhile isSpaceCh = x.dropWhile isSpaceCh := by
  intro w
  induction w with
  | nil => intro _ x; rfl
  | cons c rest ih =>
    intro h x
    obtain ⟨h1, h2⟩ := allWs_cons c rest h
    rw [List.cons_append, List.dropWhile_cons_of_pos h1]
    exact ih h2 x

theorem dw_allws (x : List Char) (h : allWs x) :
    x.dropWhile isSpaceCh = [] := by
  have := dw_append_ws x h []
  simpa using this

theorem dw_stop : ∀ (x : List Char), hasNonWs x → ∀ y : List Char,
    (x ++ y).dropWhile isSpaceCh = x.dropWhile isSpaceCh ++ y := by
  intro x
  induction x with
  | nil => intro h; obtain ⟨c, hc, _⟩ := h; cases hc
  | cons c rest ih =>
    intro h y
    by_cases hc : isSpaceCh c = true
    · have hrest : hasNonWs rest := by
        obtain ⟨d, hd, hd2⟩ := h
        rcases List.mem_cons.mp hd with hd | hd
        · subst hd; rw [hc] at hd2; cases hd2
        · exact ⟨d, hd, hd2⟩
      rw [List.cons_append, List.dropWhile_cons_of_pos hc,
        List.dropWhile_cons_of_pos hc]
      exact ih hrest y
    · rw [List.cons_append, List.dropWhile_cons_of_neg hc,
        List.dropWhile_cons_of_neg hc, List.cons_append]

theorem rstrip_allws : ∀ (w : List Char), allWs w → rstripWs w = [] := by
  intro w
  induction w with
  | nil => intro _; rfl
  | cons c rest ih =>
    intro h
    obtain ⟨h1, h2⟩ := allWs_cons c rest h
    simp only [rstripWs, ih h2, h1]
    rfl

theorem rstrip_ne_nil : ∀ (y : List Char), hasNonWs y → rstripWs y ≠ [] := by
  intro y
  induction y with
  | nil => intro h; obtain ⟨c, hc, _⟩ := h; cases hc
  | cons c rest ih =>
    intro h
    by_cases hc : isSpaceCh c = true
    · have hrest : hasNonWs rest := by
        obtain ⟨d, hd, hd2⟩ := h
        rcases List.mem_cons.mp hd with hd | hd
        · subst hd; rw [hc] at hd2; cases hd2
        · exact ⟨d, hd, hd2⟩
      have hne := ih hrest
      simp only [rstripWs]
      intro hcontra
      split at hcontra
      · next hsplit =>
        rw [Bool.and_eq_true, List.isEmpty_iff] at hsplit
        exact hne hsplit.1
      · cases hcontra
    · simp only [rstripWs]
      intro hcontra
      split at hcontra
      · next hsplit =>
        rw [Bool.and_eq_true] at hsplit
        rw [hsplit.2] at hc
        exact hc rfl
      · cases hcontra

theorem rs_append_ws : ∀ (x w : List Char), allWs w →
    rstripWs (x ++ w) = rstripWs x := by
  intro x
  induction x with
  | nil =>
    intro w hw
    rw [List.nil_append]
    exact rstrip_allws w hw
  | cons c rest ih =>
    intro w hw
    rw [List.cons_append]
    simp only [rstripWs, ih w hw]

theorem rs_append_keep : ∀ (x y : List Char), hasNonWs y →
    rstripWs (x ++ y) = x ++ rstripWs y := by
  intro x
  induction x with
  | nil => intro y _; rfl
  | cons c rest ih =>
    intro y hy
    rw [List.cons_append]
    simp only [rstripWs, ih y hy]
    have hne : ((rest ++ rstripWs y).isEmpty && isSpaceCh c) = false := by
      have h1 : (rest ++ rstripWs y).isEmpty = false := by
        cases hh : (rest ++ rstripWs y).isEmpty
        · rfl
        · rw [List.isEmpty_iff] at hh
          exact absurd (List.append_eq_nil.mp hh).2 (rstrip_ne_nil y hy)
      rw [h1]
      rfl
    rw [if_neg (by rw [hne]; exact Bool.false_ne_true), List.cons_append]

theorem strip_ws_pad (w1 x w2 : List Char) (h1 : allWs w1) (h2 : allWs w2) :
    stripWs (w1 ++ x ++ w2) = stripWs x := by
  by_cases hx : ∀ c ∈ x, isSpaceCh c = true
  · have hall : allWs (w1 ++ x ++ w2) := by
      intro c hc
      rcases List.mem_append.mp hc with hc | hc
      · rcases List.mem_append.mp hc with hc | hc
        · exact h1 c hc
        · exact hx c hc
      · exact h2 c hc
    have hx2 : allWs x := hx
    simp only [stripWs, dw_allws _ hall, dw_allws _ hx2]
  · have hnx : hasNonWs x := by
      push_neg at hx
      obtain ⟨c, hc, hc2⟩ := hx
      exact ⟨c, hc, Bool.eq_false_iff.mpr hc2⟩
    have e1 : (w1 ++ x ++ w2).dropWhile isSpaceCh =
        x.dropWhile isSpaceCh ++ w2 := by
      rw [List.append_assoc, dw_append_ws w1 h1]
      have hnxw : hasNonWs x := hnx
      exact dw_stop x hnxw w2
    simp only [stripWs, e1]
    exact rs_append_ws _ w2 h2

/-! ### A whitespace run in the subject can be replaced by any other
non-empty whitespace run without changing the normalised subject. -/

theorem eatCI_append : ∀ (pat X Y : List Char), pat.length ≤ X.length →
    eatCI pat (X ++ Y) = (eatCI pat X).map (fun r => r ++ Y) := by
  intro pat
  induction pat with
  | nil => intro X Y _; rfl
  | cons p ps ih =>
    intro X Y hlen
    cases X with
    | nil => simp at hlen
    | cons x xs =>
      simp only [List.length_cons] at hlen
      rw [List.cons_append]
      simp only [eatCI]
      by_cases hx : (toLowerCh x == p) = true
      · rw [if_pos hx, if_pos hx]
        exact ih xs Y (by omega)
      · rw [if_neg hx, if_neg hx]
        rfl

theorem eatCI_overflow : ∀ (pat X r B : List Char), X.length < pat.length →
    (∀ p ∈ pat, isSpaceCh p = false) → allWs r → r ≠ [] →
    eatCI pat (X ++ (r ++ B)) = none := by
  intro pat
  induction pat with
  | nil => intro X r B hlen; simp at hlen
  | cons p ps ih =>
    intro X r B hlen hpat hr hrn
    cases X with
    | nil =>
      cases r with
      | nil => exact absurd rfl hrn
      | cons w rest =>
        obtain ⟨hw, _⟩ := allWs_cons w rest hr
        simp only [List.nil_append, List.cons_append, eatCI]
        rw [if_neg (by
          rw [ws_beq_false w p hw (hpat p (List.mem_cons_self p ps))]
          exact Bool.false_ne_true)]
    | cons x xs =>
      simp only [List.length_cons] at hlen
      rw [List.cons_append]
      simp only [eatCI]
      by_cases hx : (toLowerCh x == p) = true
      · rw [if_pos hx]
        exact ih xs r B (by omega)
          (fun q hq => hpat q (List.mem_cons_of_mem p hq)) hr hrn
      · rw [if_neg hx]

theorem probeCase (pat X B r1 r2 : List Char)
    (hpat : ∀ p ∈ pat, isSpaceCh p = false) (hne : pat ≠ [])
    (hr1 : allWs r1) (hr2 : allWs r2) (hn1 : r1 ≠ []) (hn2 : r2 ≠ []) :
    (eatCI pat (X ++ (r1 ++ B)) = none ∧ eatCI pat (X ++ (r2 ++ B)) = none) ∨
    (∃ rX, eatCI pat X = some rX ∧ rX.length < X.length ∧
      eatCI pat (X ++ (r1 ++ B)) = some (rX ++ (r1 ++ B)) ∧
      eatCI pat (X ++ (r2 ++ B)) = some (rX ++ (r2 ++ B))) := by
  by_cases hlen : pat.length ≤ X.length
  · have e1 := eatCI_append pat X (r1 ++ B) hlen
    have e2 := eatCI_append pat X (r2 ++ B) hlen
    rcases hX : eatCI pat X with _ | rX <;> rw [hX] at e1 e2 <;>
      simp only [Option.map_none', Option.map_some'] at e1 e2
    · exact Or.inl ⟨e1, e2⟩
    · right
      refine ⟨rX, rfl, ?_, e1, e2⟩
      have hq := eatCI_length pat X rX hX
      cases pat with
      | nil => exact absurd rfl hne
      | cons p ps =>
        simp only [List.length_cons] at hq
        omega
  · left
    have hlen2 : X.length < pat.length := Nat.lt_of_not_le hlen
    exact ⟨eatCI_overflow pat X r1 B hlen2 hpat hr1 hn1,
      eatCI_overflow pat X r2 B hlen2 hpat hr2 hn2⟩

theorem cacheMatch_true_none (l : List Char) : cacheMatch true l = none := by
  simp [cacheMatch]

theorem cmPair (X B r1 r2 : List Char) (hr1 : allWs r1) (hr2 : allWs r2)
    (hn1 : r1 ≠ []) (hn2 : r2 ≠ []) :
    (cacheMatch false (X ++ (r1 ++ B)) = none ∧
      cacheMatch false (X ++ (r2 ++ B)) = none) ∨
    (∃ A3, A3.length < X.length ∧
      cacheMatch false (X ++ (r1 ++ B)) = some (A3 ++ (r1 ++ B)) ∧
      cacheMatch false (X ++ (r2 ++ B)) = some (A3 ++ (r2 ++ B))) ∨
    (cacheMatch false (X ++ (r1 ++ B)) = some (B.dropWhile isSpaceCh) ∧
      cacheMatch false (X ++ (r2 ++ B)) = some (B.dropWhile isSpaceCh)) := by
  have resolve : ∀ rX : List Char, rX.length < X.length →
      cacheMatch false (X ++ (r1 ++ B)) = some (wsRest (rX ++ (r1 ++ B))) →
      cacheMatch false (X ++ (r2 ++ B)) = some (wsRest (rX ++ (r2 ++ B))) →
      (cacheMatch false (X ++ (r1 ++ B)) = none ∧
        cacheMatch false (X ++ (r2 ++ B)) = none) ∨
      (∃ A3, A3.length < X.length ∧
        cacheMatch false (X ++ (r1 ++ B)) = some (A3 ++ (r1 ++ B)) ∧
        cacheMatch false (X ++ (r2 ++ B)) = some (A3 ++ (r2 ++ B))) ∨
      (cacheMatch false (X ++ (r1 ++ B)) = some (B.dropWhile isSpaceCh) ∧
        cacheMatch false (X ++ (r2 ++ B)) = some (B.dropWhile isSpaceCh)) := by
    intro rX hlt c1 c2
    by_cases hax : ∀ c ∈ rX, isSpaceCh c = true
    · right; right
      constructor
      · rw [c1]
        have : wsRest (rX ++ (r1 ++ B)) = B.dropWhile isSpaceCh := by
          show (rX ++ (r1 ++ B)).dropWhile isSpaceCh = _
          rw [dw_append_ws rX hax, dw_append_ws r1 hr1]
        rw [this]
      · rw [c2]
        have : wsRest (rX ++ (r2 ++ B)) = B.dropWhile isSpaceCh := by
          show (rX ++ (r2 ++ B)).dropWhile isSpaceCh = _
          rw [dw_append_ws rX hax, dw_append_ws r2 hr2]
        rw [this]
    · have hnx : hasNonWs rX := by
        push_neg at hax
        obtain ⟨c, hc, hc2⟩ := hax
        exact ⟨c, hc, Bool.eq_false_iff.mpr hc2⟩
      right; left
      refine ⟨rX.dropWhile isSpaceCh,
        lt_of_le_of_lt ((List.dropWhile_sublist _).length_le) hlt, ?_, ?_⟩
      · rw [c1]
        have : wsRest (rX ++ (r1 ++ B)) =
            rX.dropWhile isSpaceCh ++ (r1 ++ B) := by
          show (rX ++ (r1 ++ B)).dropWhile isSpaceCh = _
          exact dw_stop rX hnx (r1 ++ B)
        rw [this]
      · rw [c2]
        have : wsRest (rX ++ (r2 ++ B)) =
            rX.dropWhile isSpaceCh ++ (r2 ++ B) := by
          show (rX ++ (r2 ++ B)).dropWhile isSpaceCh = _
          exact dw_stop rX hnx (r2 ++ B)
        rw [this]
  rcases probeCase "re:".data X B r1 r2 (by decide) (by decide)
      hr1 hr2 hn1 hn2 with ⟨e1, e2⟩ | ⟨rX, hX, hlt, e1, e2⟩
  · rcases probeCase "fwd:".data X B r1 r2 (by decide) (by decide)
        hr1 hr2 hn1 hn2 with ⟨f1, f2⟩ | ⟨rX, hX, hlt, f1, f2⟩
    · rcases probeCase "fw:".data X B r1 r2 (by decide) (by decide)
          hr1 hr2 hn1 hn2 with ⟨g1, g2⟩ | ⟨rX, hX, hlt, g1, g2⟩
      · left
        constructor <;>
          simp only [cacheMatch, Bool.false_eq_true, if_false, e1, e2, f1, f2,
            g1, g2]
      · refine resolve rX hlt ?_ ?_ <;>
          simp only [cacheMatch, Bool.false_eq_true, if_false, e1, e2, f1, f2,
            g1, g2]
    · refine resolve rX hlt ?_ ?_ <;>
        simp only [cacheMatch, Bool.false_eq_true, if_false, e1, e2, f1, f2]
  · refine resolve rX hlt ?_ ?_ <;>
      simp only [cacheMatch, Bool.false_eq_true, if_false, e1, e2]

theorem cacheMatch_ws_none (pw : Bool) (w : Char) (l : List Char)
    (hw : isSpaceCh w = true) : cacheMatch pw (w :: l) = none := by
  cases pw with
  | true => exact cacheMatch_true_none _
  | false =>
    have hre : eatCI "re:".data (w :: l) = none := by
      show eatCI ('r' :: "e:".data) (w :: l) = none
      simp only [eatCI]
      rw [if_neg (by
        rw [ws_beq_false w 'r' hw (by decide)]
        exact Bool.false_ne_true)]
    have hfwd : eatCI "fwd:".data (w :: l) = none := by
      show eatCI ('f' :: "wd:".data) (w :: l) = none
      simp only [eatCI]
      rw [if_neg (by
        rw [ws_beq_false w 'f' hw (by decide)]
        exact Bool.false_ne_true)]
    have hfw : eatCI "fw:".data (w :: l) = none := by
      show eatCI ('f' :: "w:".data) (w :: l) = none
      simp only [eatCI]
      rw [if_neg (by
        rw [ws_beq_false w 'f' hw (by decide)]
        exact Bool.false_ne_true)]
    simp only [cacheMatch, Bool.false_eq_true, if_false, hre, hfwd, hfw]

theorem cacheSub_ws_run : ∀ (r : List Char), allWs r → r ≠ [] →
    ∀ (pw : Bool) (B : List Char),
    cacheSub pw (r ++ B) = r ++ cacheSub false B := by
  intro r
  induction r with
  | nil => intro _ hne; exact absurd rfl hne
  | cons w rest ih =>
    intro h _ pw B
    obtain ⟨hw, hrest⟩ := allWs_cons w rest h
    have hcm := cacheMatch_ws_none pw w (rest ++ B) hw
    rw [List.cons_append]
    simp only [cacheSub_cons, hcm]
    rw [ws_not_word w hw]
    cases rest with
    | nil => simp
    | cons x xs =>
      rw [ih hrest (by simp) false B]
      rfl

theorem collapse_ws_head (r Z : List Char) (h : allWs r) (hne : r ≠ []) :
    collapseWs (r ++ Z) = ' ' :: collapseWs (Z.dropWhile isSpaceCh) := by
  cases r with
  | nil => exact absurd rfl hne
  | cons w rest =>
    obtain ⟨hw, hrest⟩ := allWs_cons w rest h
    rw [List.cons_append, collapseWs_cons, if_pos hw, dw_append_ws rest hrest]

theorem collapse_dropWhile (T : List Char) :
    collapseWs (T.dropWhile isSpaceCh) =
      match collapseWs T with
      | [] => []
      | c :: R => if c == ' ' then R else c :: R := by
  cases T with
  | nil => rfl
  | cons c tail =>
    by_cases hc : isSpaceCh c = true
    · have h1 : (c :: tail).dropWhile isSpaceCh = tail.dropWhile isSpaceCh :=
        List.dropWhile_cons_of_pos hc
      have h2 : collapseWs (c :: tail) =
          ' ' :: collapseWs (tail.dropWhile isSpaceCh) := by
        rw [collapseWs_cons, if_pos hc]
      rw [h1, h2]
      simp
    · have h1 : (c :: tail).dropWhile isSpaceCh = c :: tail :=
        List.dropWhile_cons_of_neg hc
      have h2 : collapseWs (c :: tail) = c :: collapseWs tail := by
        rw [collapseWs_cons, if_neg hc]
      rw [h1, h2]
      simp [nonws_ne_space c (Bool.eq_false_iff.mpr hc)]

theorem collapse_cons_congr (c : Char) (T1 T2 : List Char)
    (h : collapseWs T1 = collapseWs T2) :
    collapseWs (c :: T1) = collapseWs (c :: T2) := by
  rw [collapseWs_cons, collapseWs_cons]
  by_cases hc : isSpaceCh c = true
  · rw [if_pos hc, if_pos hc, collapse_dropWhile, collapse_dropWhile, h]
  · rw [if_neg hc, if_neg hc, h]

theorem masterBase (pw : Bool) (r1 r2 B : List Char) (h1 : allWs r1)
    (h2 : allWs r2) (hn1 : r1 ≠ []) (hn2 : r2 ≠ []) :
    collapseWs (cacheSub pw (r1 ++ B)) = collapseWs (cacheSub pw (r2 ++ B)) := by
  rw [cacheSub_ws_run r1 h1 hn1 pw B, cacheSub_ws_run r2 h2 hn2 pw B,
    collapse_ws_head r1 _ h1 hn1, collapse_ws_head r2 _ h2 hn2]

theorem cacheSub_wsRunAux : ∀ (N : Nat) (A : List Char), A.length ≤ N →
    ∀ (pw : Bool) (r1 r2 B : List Char), allWs r1 → allWs r2 →
    r1 ≠ [] → r2 ≠ [] →
    collapseWs (cacheSub pw (A ++ (r1 ++ B))) =
      collapseWs (cacheSub pw (A ++ (r2 ++ B))) := by
  intro N
  induction N with
  | zero =>
    intro A hA pw r1 r2 B h1 h2 hn1 hn2
    have hAe : A = [] := List.length_eq_zero.mp (Nat.le_zero.mp hA)
    subst hAe
    simp only [List.nil_append]
    exact masterBase pw r1 r2 B h1 h2 hn1 hn2
  | succ N ih =>
    intro A hA pw r1 r2 B h1 h2 hn1 hn2
    cases A with
    | nil =>
      simp only [List.nil_append]
      exact masterBase pw r1 r2 B h1 h2 hn1 hn2
    | cons c A2 =>
      simp only [List.length_cons] at hA
      by_cases hpw : pw = true
      · subst hpw
        simp only [List.cons_append, cacheSub_cons, cacheMatch_true_none]
        exact collapse_cons_congr c _ _
          (ih A2 (by omega) (isWordCh c) r1 r2 B h1 h2 hn1 hn2)
      · have hpw2 : pw = false := Bool.eq_false_iff.mpr hpw
        subst hpw2
        rcases cmPair (c :: A2) B r1 r2 h1 h2 hn1 hn2 with
          ⟨e1, e2⟩ | ⟨A3, hlt, e1, e2⟩ | ⟨e1, e2⟩
        · simp only [List.cons_append] at e1 e2
          simp only [List.cons_append, cacheSub_cons, e1, e2]
          exact collapse_cons_congr c _ _
            (ih A2 (by omega) (isWordCh c) r1 r2 B h1 h2 hn1 hn2)
        · simp only [List.length_cons] at hlt
          simp only [List.cons_append] at e1 e2
          simp only [List.cons_append, cacheSub_cons, e1, e2]
          exact ih A3 (by omega) false r1 r2 B h1 h2 hn1 hn2
        · simp only [List.cons_append] at e1 e2
          simp only [List.cons_append, cacheSub_cons, e1, e2]

/-- Replacing one non-empty whitespace run by another does not change
collapse-after-cacheSub. -/
theorem cacheSub_wsRun (pw : Bool) (A r1 r2 B : List Char) (h1 : allWs r1)
    (h2 : allWs r2) (hn1 : r1 ≠ []) (hn2 : r2 ≠ []) :
    collapseWs (cacheSub pw (A ++ (r1 ++ B))) =
      collapseWs (cacheSub pw (A ++ (r2 ++ B))) :=
  cacheSub_wsRunAux A.length A (le_refl _) pw r1 r2 B h1 h2 hn1 hn2

/-! ### The four invariances of the normalised subject. -/

theorem map_toLower_allWs : ∀ (w : List Char), allWs w →
    w.map toLowerCh = w := by
  intro w
  induction w with
  | nil => intro _; rfl
  | cons c rest ih =>
    intro h
    obtain ⟨h1, h2⟩ := allWs_cons c rest h
    rw [List.map_cons, ws_toLower c h1, ih h2]

theorem dw_head_false : ∀ (t : List Char) (c : Char) (z : List Char),
    t.dropWhile isSpaceCh = c :: z → isSpaceCh c = false := by
  intro t
  induction t with
  | nil => intro c z h; cases h
  | cons a rest ih =>
    intro c z h
    by_cases ha : isSpaceCh a = true
    · rw [List.dropWhile_cons_of_pos ha] at h
      exact ih c z h
    · rw [List.dropWhile_cons_of_neg ha] at h
      injection h with h1 h2
      subst h1
      exact Bool.eq_false_iff.mpr ha

theorem hasNonWs_dw (t : List Char) (h : hasNonWs t) :
    hasNonWs (t.dropWhile isSpaceCh) := by
  rcases hd : t.dropWhile isSpaceCh with _ | ⟨c, z⟩
  · exfalso
    obtain ⟨d, hdm, hd2⟩ := h
    have ht : t.takeWhile isSpaceCh ++ t.dropWhile isSpaceCh = t :=
      List.takeWhile_append_dropWhile isSpaceCh t
    rw [hd, List.append_nil] at ht
    rw [← ht] at hdm
    rw [List.mem_takeWhile_imp hdm] at hd2
    cases hd2
  · exact ⟨c, List.mem_cons_self c z, dw_head_false t c z hd⟩

theorem dw_rstrip_comm (t : List Char) (h : hasNonWs t) :
    (rstripWs t).dropWhile isSpaceCh = stripWs t := by
  have hdw : hasNonWs (t.dropWhile isSpaceCh) := hasNonWs_dw t h
  have hsplit : t.takeWhile isSpaceCh ++ t.dropWhile isSpaceCh = t :=
    List.takeWhile_append_dropWhile isSpaceCh t
  have htw : allWs (t.takeWhile isSpaceCh) := fun c hc =>
    List.mem_takeWhile_imp hc
  have h1 : rstripWs t =
      t.takeWhile isSpaceCh ++ rstripWs (t.dropWhile isSpaceCh) := by
    conv_lhs => rw [← hsplit]
    exact rs_append_keep _ _ hdw
  rw [h1, dw_append_ws _ htw]
  simp only [stripWs]
  rcases hd : t.dropWhile isSpaceCh with _ | ⟨c, z⟩
  · rfl
  · have hc : isSpaceCh c = false := dw_head_false t c z hd
    rcases hr : rstripWs (c :: z) with _ | ⟨d, xs⟩
    · rfl
    · have hcd := rstrip_head c z d xs hr
      subst hcd
      exact List.dropWhile_cons_of_neg (by rw [hc]; exact Bool.false_ne_true)

theorem cacheMatch_re_lit (z : List Char) :
    cacheMatch false ('r' :: ('e' :: (':' :: (' ' :: z)))) =
      some (z.dropWhile isSpaceCh) := rfl

theorem cacheMatch_fwd_lit (z : List Char) :
    cacheMatch false ('f' :: ('w' :: ('d' :: (':' :: (' ' :: z))))) =
      some (z.dropWhile isSpaceCh) := rfl

theorem strip_re_aux (t : List Char) :
    collapseWs (cacheSub false
        (stripWs ('r' :: ('e' :: (':' :: (' ' :: t)))))) =
      collapseWs (cacheSub false (stripWs t)) := by
  by_cases ht : ∀ c ∈ t, isSpaceCh c = true
  · have hst : stripWs t = [] := by
      simp only [stripWs, dw_allws t ht]
      rfl
    have hws : allWs (' ' :: t) := by
      intro c hc
      rcases List.mem_cons.mp hc with hc | hc
      · subst hc; decide
      · exact ht c hc
    have hl : stripWs ('r' :: ('e' :: (':' :: (' ' :: t)))) =
        ['r', 'e', ':'] := by
      simp only [stripWs]
      rw [List.dropWhile_cons_of_neg (by decide)]
      have he : ('r' :: ('e' :: (':' :: (' ' :: t)))) =
          ['r', 'e', ':'] ++ (' ' :: t) := rfl
      rw [he, rs_append_ws _ _ hws]
      decide
    rw [hst, hl]
    decide
  · have hnt : hasNonWs t := by
      push_neg at ht
      obtain ⟨c, hc, hc2⟩ := ht
      exact ⟨c, hc, Bool.eq_false_iff.mpr hc2⟩
    have hl : stripWs ('r' :: ('e' :: (':' :: (' ' :: t)))) =
        'r' :: ('e' :: (':' :: (' ' :: rstripWs t))) := by
      simp only [stripWs]
      rw [List.dropWhile_cons_of_neg (by decide)]
      have he : ('r' :: ('e' :: (':' :: (' ' :: t)))) =
          ['r', 'e', ':', ' '] ++ t := rfl
      rw [he, rs_append_keep _ t hnt]
      rfl
    rw [hl]
    simp only [cacheSub_cons, cacheMatch_re_lit]
    rw [dw_rstrip_comm t hnt]

theorem strip_fwd_aux (t : List Char) :
    collapseWs (cacheSub false
        (stripWs ('f' :: ('w' :: ('d' :: (':' :: (' ' :: t))))))) =
      collapseWs (cacheSub false (stripWs t)) := by
  by_cases ht : ∀ c ∈ t, isSpaceCh c = true
  · have hst : stripWs t = [] := by
      simp only [stripWs, dw_allws t ht]
      rfl
    have hws : allWs (' ' :: t) := by
      intro c hc
      rcases List.mem_cons.mp hc with hc | hc
      · subst hc; decide
      · exact ht c hc
    have hl : stripWs ('f' :: ('w' :: ('d' :: (':' :: (' ' :: t))))) =
        ['f', 'w', 'd', ':'] := by
      simp only [stripWs]
      rw [List.dropWhile_cons_of_neg (by decide)]
      have he : ('f' :: ('w' :: ('d' :: (':' :: (' ' :: t))))) =
          ['f', 'w', 'd', ':'] ++ (' ' :: t) := rfl
      rw [he, rs_append_ws _ _ hws]
      decide
    rw [hst, hl]
    decide
  · have hnt : hasNonWs t := by
      push_neg at ht
      obtain ⟨c, hc, hc2⟩ := ht
      exact ⟨c, hc, Bool.eq_false_iff.mpr hc2⟩
    have hl : stripWs ('f' :: ('w' :: ('d' :: (':' :: (' ' :: t))))) =
        'f' :: ('w' :: ('d' :: (':' :: (' ' :: rstripWs t)))) := by
      simp only [stripWs]
      rw [List.dropWhile_cons_of_neg (by decide)]
      have he : ('f' :: ('w' :: ('d' :: (':' :: (' ' :: t))))) =
          ['f', 'w', 'd', ':', ' '] ++ t := rfl
      rw [he, rs_append_keep _ t hnt]
      rfl
    rw [hl]
    simp only [cacheSub_cons, cacheMatch_fwd_lit]
    rw [dw_rstrip_comm t hnt]

theorem norm_re (s : List Char) :
    normSubject ("Re: ".data ++ s) = normSubject s := by
  have hmap : ("Re: ".data ++ s).map toLowerCh =
      'r' :: ('e' :: (':' :: (' ' :: s.map toLowerCh))) := rfl
  simp only [normSubject, hmap]
  exact strip_re_aux (s.map toLowerCh)

theorem norm_fwd (s : List Char) :
    normSubject ("Fwd: ".data ++ s) = normSubject s := by
  have hmap : ("Fwd: ".data ++ s).map toLowerCh =
      'f' :: ('w' :: ('d' :: (':' :: (' ' :: s.map toLowerCh)))) := rfl
  simp only [normSubject, hmap]
  exact strip_fwd_aux (s.map toLowerCh)

theorem norm_case (s s2 : List Char) (h : s2.map toLowerCh = s.map toLowerCh) :
    normSubject s2 = normSubject s := by
  simp only [normSubject, h]

theorem norm_pad (s w1 w2 : List Char) (h1 : allWs w1) (h2 : allWs w2) :
    normSubject (w1 ++ s ++ w2) = normSubject s := by
  have hmap : (w1 ++ s ++ w2).map toLowerCh =
      w1 ++ s.map toLowerCh ++ w2 := by
    rw [List.map_append, List.map_append, map_toLower_allWs w1 h1,
      map_toLower_allWs w2 h2]
  simp only [normSubject, hmap, strip_ws_pad w1 (s.map toLowerCh) w2 h1 h2]

theorem norm_wsrun (a b r1 r2 : List Char) (h1 : allWs r1) (h2 : allWs r2)
    (hn1 : r1 ≠ []) (hn2 : r2 ≠ []) :
    normSubject (a ++ r1 ++ b) = normSubject (a ++ r2 ++ b) := by
  have hmap : ∀ r : List Char, allWs r → (a ++ r ++ b).map toLowerCh =
      a.map toLowerCh ++ r ++ b.map toLowerCh := by
    intro r hr
    rw [List.map_append, List.map_append, map_toLower_allWs r hr]
  by_cases hla : ∀ c ∈ a.map toLowerCh, isSpaceCh c = true
  · have hstr : ∀ r : List Char, allWs r →
        stripWs (a.map toLowerCh ++ r ++ b.map toLowerCh) =
          stripWs (b.map toLowerCh) := by
      intro r hr
      simp only [stripWs]
      rw [List.append_assoc, dw_append_ws _ hla, dw_append_ws r hr]
    simp only [normSubject, hmap r1 h1, hmap r2 h2, hstr r1 h1, hstr r2 h2]
  · have hna : hasNonWs (a.map toLowerCh) := by
      push_neg at hla
      obtain ⟨c, hc, hc2⟩ := hla
      exact ⟨c, hc, Bool.eq_false_iff.mpr hc2⟩
    by_cases hlb : ∀ c ∈ b.map toLowerCh, isSpaceCh c = true
    · have hstr : ∀ r : List Char, allWs r →
          stripWs (a.map toLowerCh ++ r ++ b.map toLowerCh) =
            rstripWs ((a.map toLowerCh).dropWhile isSpaceCh) := by
        intro r hr
        have hwb : allWs (r ++ b.map toLowerCh) := by
          intro c hc
          rcases List.mem_append.mp hc with hc | hc
          · exact hr c hc
          · exact hlb c hc
        simp only [stripWs]
        rw [List.append_assoc, dw_stop _ hna, rs_append_ws _ _ hwb]
      simp only [normSubject, hmap r1 h1, hmap r2 h2, hstr r1 h1, hstr r2 h2]
    · have hnb : hasNonWs (b.map toLowerCh) := by
        push_neg at hlb
        obtain ⟨c, hc, hc2⟩ := hlb
        exact ⟨c, hc, Bool.eq_false_iff.mpr hc2⟩
      have hstr : ∀ r : List Char, allWs r →
          stripWs (a.map toLowerCh ++ r ++ b.map toLowerCh) =
            (a.map toLowerCh).dropWhile isSpaceCh ++
              (r ++ rstripWs (b.map toLowerCh)) := by
        intro r hr
        simp only [stripWs]
        rw [List.append_assoc, dw_stop _ hna, ← List.append_assoc,
          rs_append_keep _ _ hnb, List.append_assoc]
      simp only [normSubject, hmap r1 h1, hmap r2 h2, hstr r1 h1, hstr r2 h2]
      exact cacheSub_wsRun false ((a.map toLowerCh).dropWhile isSpaceCh)
        r1 r2 (rstripWs (b.map toLowerCh)) h1 h2 hn1 hn2

theorem hash_congr (f s1 s2 : List Char) (h : normSubject s1 = normSubject s2) :
    email_hash f s1 = email_hash f s2 := by
  simp only [email_hash, emailKey, h]

/-- C7: the email fingerprint hash is invariant under a Re:/Fwd: subject
prefix, under case changes in the subject, under added leading or trailing
whitespace, and under replacing an internal whitespace run by any other
non-empty whitespace run. -/
theorem C7_email_hash_invariance :
    (∀ f s : List Char, email_hash f ("Re: ".data ++ s) = email_hash f s ∧
      email_hash f ("Fwd: ".data ++ s) = email_hash f s) ∧
    (∀ f s s2 : List Char, s2.map toLowerCh = s.map toLowerCh →
      email_hash f s2 = email_hash f s) ∧
    (∀ f s w1 w2 : List Char, allWs w1 → allWs w2 →
      email_hash f (w1 ++ s ++ w2) = email_hash f s) ∧
    (∀ f a b r1 r2 : List Char, allWs r1 → allWs r2 → r1 ≠ [] → r2 ≠ [] →
      email_hash f (a ++ r1 ++ b) = email_hash f (a ++ r2 ++ b)) := by
  refine ⟨fun f s => ⟨?_, ?_⟩, fun f s s2 h => ?_, fun f s w1 w2 h1 h2 => ?_,
    fun f a b r1 r2 h1 h2 hn1 hn2 => ?_⟩
  · exact hash_congr f _ _ (norm_re s)
  · exact hash_congr f _ _ (norm_fwd s)
  · exact hash_congr f _ _ (norm_case s s2 h)
  · exact hash_congr f _ _ (norm_pad s w1 w2 h1 h2)
  · exact hash_congr f _ _ (norm_wsrun a b r1 r2 h1 h2 hn1 hn2)

/-- C7 witness: the invariance theorem applied at concrete senders and
subjects, with every hypothesis discharged by computation. -/
theorem C7_email_hash_invariance_witness :
    (("b".data.map toLowerCh = "B".data.map toLowerCh) ∧
      allWs " ".data ∧ allWs "\t\t".data ∧
      " ".data ≠ ([] : List Char) ∧ "\t\t".data ≠ ([] : List Char)) ∧
    email_hash "x@y".data ("Re: ".data ++ "a".data) =
      email_hash "x@y".data "a".data ∧
    email_hash "x@y".data ("Fwd: ".data ++ "a".data) =
      email_hash "x@y".data "a".data ∧
    email_hash "x@y".data "b".data = email_hash "x@y".data "B".data ∧
    email_hash "x@y".data (" ".data ++ "a".data ++ " ".data) =
      email_hash "x@y".data "a".data ∧
    email_hash "x@y".data ("a".data ++ " ".data ++ "b".data) =
      email_hash "x@y".data ("a".data ++ "\t\t".data ++ "b".data) :=
  ⟨⟨by decide, by decide, by decide, by decide, by decide⟩,
    (C7_email_hash_invariance.1 "x@y".data "a".data).1,
    (C7_email_hash_invariance.1 "x@y".data "a".data).2,
    C7_email_hash_invariance.2.1 "x@y".data "B".data "b".data (by decide),
    C7_email_hash_invariance.2.2.1 "x@y".data "a".data " ".data " ".data
      (by decide) (by decide),
    C7_email_hash_invariance.2.2.2 "x@y".data "a".data "b".data
      " ".data "\t\t".data (by decide) (by decide) (by decide) (by decide)⟩

end Cleanr
